import Mathlib

/-!
Verification of the binary radix sort repository (`src/bin_radix_sort.cpp`).

The sequence under sort (`std::vector<T>` of a fixed-width unsigned integer
type of width `W` bits) is embedded as a `List Nat`; the fixed-width
assumption, where a claim needs it, is the hypothesis that every element is
`< 2 ^ W`.  Reads `v[i]` are `List.getD i 0`, writes are `List.set`; both
match the C++ semantics at every in-bounds index, which is the only kind the
source performs on the sequence (proved below).  C++ `int` variables
(`left`, `right`, `bit`, and the fields of the work-list triples) are
embedded as `Int`.
-/

/-- Model of the three-line element exchange
`T tmp = v[left]; v[left] = v[right]; v[right] = tmp;`
(and of `std::swap(vview[left], vview[right])`): both reads happen before
both writes. -/
def list_swap (l : List Nat) (i j : Nat) : List Nat :=
  (l.set i (l.getD j 0)).set j (l.getD i 0)

/-- Model of the two-pointer partition loop shared verbatim by
`bin_radix_sort_rec` (lines 29-42) and `bin_radix_sort_it` (lines 74-93):

```
while (left <= right) {
    const unsigned char b = (v[left] >> bit) & 1;
    if (b == 0) { ++left; }
    else        { swap(v[left], v[right]); --right; }
}
```

It returns the mutated sequence together with the final value of `left`.
The recursive variant runs the same loop on a `std::span`; a span indexes
the underlying vector at `start + local index`, so the loop on the span is
this loop started at `left = start`, `right = start + size - 1` in global
coordinates. -/
def partitionLoop (bit : Nat) (l : List Nat) (left right : Int) : List Nat × Int :=
  if h : left ≤ right then
    if (l.getD left.toNat 0 >>> bit) &&& 1 = 0 then
      partitionLoop bit l (left + 1) right
    else
      partitionLoop bit (list_swap l left.toNat right.toNat) left (right - 1)
  else
    (l, left)
termination_by (right + 1 - left).toNat
decreasing_by
  all_goals simp_wf
  all_goals omega

/-- Model of the inner lambda `bin_radix_sort_rec_inm` of `bin_radix_sort_rec`
(lines 20-46), with the `std::span` view written in global coordinates as the
pair `(start, size)`:

```
if (vview.size() <= 1 || bit < 0) return;
... partition loop ...
bin_radix_sort_rec_inm(vview.subspan(0, left), bit - 1);
bin_radix_sort_rec_inm(vview.subspan(left), bit - 1);
```

`subspan(0, left)` is the view `(start, left - start)` and `subspan(left)`
is the view `(left, size - (left - start))`, where `left` is the global
final value of the loop cursor. -/
def bin_radix_sort_rec_inm (l : List Nat) (start size bit : Int) : List Nat :=
  if h : size ≤ 1 ∨ bit < 0 then l
  else
    bin_radix_sort_rec_inm
      (bin_radix_sort_rec_inm (partitionLoop bit.toNat l start (start + size - 1)).1
        start ((partitionLoop bit.toNat l start (start + size - 1)).2 - start) (bit - 1))
      (partitionLoop bit.toNat l start (start + size - 1)).2
      (size - ((partitionLoop bit.toNat l start (start + size - 1)).2 - start))
      (bit - 1)
termination_by (bit + 1).toNat
decreasing_by
  all_goals simp_wf
  all_goals omega

/-- Model of `bin_radix_sort_rec` (lines 18-49): sort the whole vector
starting at the most significant bit, `sizeof(T) * 8 - 1 = W - 1`. -/
def bin_radix_sort_rec (W : Nat) (l : List Nat) : List Nat :=
  bin_radix_sort_rec_inm l 0 (l.length : Int) ((W : Int) - 1)

/-- Measure used to prove that the work-list loop of `bin_radix_sort_it`
terminates: a pending task at bit `b` weighs `3 ^ (b + 1)`. -/
def taskWeight (t : Int × Int × Int) : Nat := 3 ^ (t.2.2 + 1).toNat

/-- Total weight of a work-list. -/
def stackWeight (stack : List (Int × Int × Int)) : Nat :=
  (stack.map taskWeight).sum

theorem stackWeight_cons (t : Int × Int × Int) (rest : List (Int × Int × Int)) :
    stackWeight (t :: rest) = taskWeight t + stackWeight rest := by
  simp [stackWeight]

/-- Model of the `while (top >= 0)` loop of `bin_radix_sort_it`
(lines 64-97).  The explicit stack `stack[0..top]` is embedded as a list of
`(start, size, bit)` triples whose head is the top slot `stack[top]`;
popping is taking the head, and the two pushes

```
stack[++top] = {start, left - start, bit - 1};
stack[++top] = {left, size - (left - start), bit - 1};
```

make `(left, size - (left - start), bit - 1)` the new head (it was pushed
last, so it is popped first). -/
def bin_radix_sort_it_loop (l : List Nat) (stack : List (Int × Int × Int)) : List Nat :=
  match stack with
  | [] => l
  | (start, size, bit) :: rest =>
    if h : size ≤ 1 ∨ bit < 0 then
      bin_radix_sort_it_loop l rest
    else
      bin_radix_sort_it_loop (partitionLoop bit.toNat l start (start + size - 1)).1
        (((partitionLoop bit.toNat l start (start + size - 1)).2,
            size - ((partitionLoop bit.toNat l start (start + size - 1)).2 - start),
            bit - 1) ::
          (start, (partitionLoop bit.toNat l start (start + size - 1)).2 - start,
            bit - 1) :: rest)
termination_by stackWeight stack
decreasing_by
  · simp only [stackWeight_cons]
    have : 0 < taskWeight (start, size, bit) := Nat.pow_pos (by norm_num)
    omega
  · simp only [stackWeight_cons]
    have h1 : (bit - 1 + 1).toNat = bit.toNat := by omega
    have h2 : (bit + 1).toNat = bit.toNat + 1 := by omega
    simp only [taskWeight, h1, h2]
    have : 0 < 3 ^ bit.toNat := Nat.pow_pos (by norm_num)
    calc 3 ^ bit.toNat + (3 ^ bit.toNat + stackWeight rest)
        < 3 ^ bit.toNat * 3 + stackWeight rest := by omega
      _ = 3 ^ (bit.toNat + 1) + stackWeight rest := by rw [Nat.pow_succ]

/-- Model of `bin_radix_sort_it` (lines 56-98): the work-list is seeded with
the single task `(0, v.size(), sizeof(T) * 8 - 1)` and the loop runs until
the list is empty. -/
def bin_radix_sort_it (W : Nat) (l : List Nat) : List Nat :=
  bin_radix_sort_it_loop l [((0 : Int), (l.length : Int), (W : Int) - 1)]

/-- Model of `equal_vectors` (lines 108-120), the harness comparison loop
`for (int i = 0; i < v1.size(); ++i) if (v1[i] != v2[i]) return false;
return true;` (the diagnostic printing has no bearing on the returned
value). -/
def equal_vectors_loop (v1 v2 : List Nat) (i : Nat) : Bool :=
  if h : i < v1.length then
    if v1.getD i 0 ≠ v2.getD i 0 then false
    else equal_vectors_loop v1 v2 (i + 1)
  else true
termination_by v1.length - i
decreasing_by
  simp_wf
  omega

/-- Model of `equal_vectors` starting its loop at `i = 0`. -/
def equal_vectors (v1 v2 : List Nat) : Bool :=
  equal_vectors_loop v1 v2 0

/-! ### Basic list lemmas -/

theorem brs_getD_set (l : List Nat) (i k a : Nat) :
    (l.set i a).getD k 0 = if i = k ∧ i < l.length then a else l.getD k 0 := by
  induction l generalizing i k with
  | nil => simp
  | cons x xs ih =>
    cases i with
    | zero =>
      cases k with
      | zero => simp
      | succ k => simp
    | succ i =>
      cases k with
      | zero => simp
      | succ k =>
        simp only [List.set_cons_succ, List.getD_cons_succ, List.length_cons]
        rw [ih]
        by_cases hik : i = k
        · subst hik
          by_cases hlen : i < xs.length
          · rw [if_pos ⟨rfl, hlen⟩, if_pos ⟨rfl, by omega⟩]
          · rw [if_neg (by omega), if_neg (by omega)]
        · rw [if_neg (by omega), if_neg (by omega)]

theorem brs_getD_oob (l : List Nat) (k : Nat) (h : l.length ≤ k) :
    l.getD k 0 = 0 :=
  List.getD_eq_default l 0 h

theorem brs_list_eq_of_getD (l m : List Nat) (hlen : l.length = m.length)
    (h : ∀ k : Nat, l.getD k 0 = m.getD k 0) : l = m := by
  refine List.ext_getElem hlen fun n h₁ h₂ => ?_
  have := h n
  rwa [List.getD_eq_getElem l 0 h₁, List.getD_eq_getElem m 0 h₂] at this

theorem list_swap_length (l : List Nat) (i j : Nat) :
    (list_swap l i j).length = l.length := by
  simp [list_swap]

theorem list_swap_getD_ne (l : List Nat) (i j k : Nat) (hik : k ≠ i) (hjk : k ≠ j) :
    (list_swap l i j).getD k 0 = l.getD k 0 := by
  simp only [list_swap]
  rw [brs_getD_set, if_neg (by omega), brs_getD_set, if_neg (by omega)]

theorem list_swap_getD_right (l : List Nat) (i j : Nat) (hj : j < l.length) :
    (list_swap l i j).getD j 0 = l.getD i 0 := by
  simp only [list_swap]
  rw [brs_getD_set, if_pos ⟨rfl, by simpa using hj⟩]

theorem list_swap_getD_left (l : List Nat) (i j : Nat) (hij : i ≠ j) :
    (list_swap l i j).getD i 0 =
      if i < l.length then l.getD j 0 else l.getD i 0 := by
  simp only [list_swap]
  rw [brs_getD_set, if_neg (by omega), brs_getD_set]
  by_cases hi : i < l.length
  · rw [if_pos ⟨rfl, hi⟩, if_pos hi]
  · rw [if_neg (by omega), if_neg hi]

theorem brs_cons_set_perm (xs : List Nat) (m x : Nat) (hm : m < xs.length) :
    (xs.getD m 0 :: xs.set m x).Perm (x :: xs) := by
  induction xs generalizing m with
  | nil => simp at hm
  | cons y ys ih =>
    cases m with
    | zero =>
      simp only [List.getD_cons_zero, List.set_cons_zero]
      exact List.Perm.swap x y ys
    | succ m =>
      simp only [List.getD_cons_succ, List.set_cons_succ]
      have h₁ : (ys.getD m 0 :: y :: ys.set m x).Perm (y :: ys.getD m 0 :: ys.set m x) :=
        List.Perm.swap y (ys.getD m 0) (ys.set m x)
      have h₂ : (y :: ys.getD m 0 :: ys.set m x).Perm (y :: x :: ys) :=
        List.Perm.cons y (ih m (by simpa using hm))
      have h₃ : (y :: x :: ys).Perm (x :: y :: ys) := List.Perm.swap x y ys
      exact (h₁.trans h₂).trans h₃

theorem brs_set_getD_self (l : List Nat) (i : Nat) (hi : i < l.length) :
    l.set i (l.getD i 0) = l := by
  induction l generalizing i with
  | nil => simp
  | cons x xs ih =>
    cases i with
    | zero => simp
    | succ i =>
      simp only [List.getD_cons_succ, List.set_cons_succ, List.cons.injEq, true_and]
      exact ih i (by simpa using hi)

theorem list_swap_perm (l : List Nat) (i j : Nat) (hi : i < l.length)
    (hj : j < l.length) : (list_swap l i j).Perm l := by
  by_cases hij : i = j
  · subst hij
    simp only [list_swap, List.set_set]
    rw [brs_set_getD_self l i hi]
  · induction l generalizing i j with
    | nil => simp at hi
    | cons x xs ih =>
      cases i with
      | zero =>
        cases j with
        | zero => omega
        | succ j =>
          simp only [list_swap, List.getD_cons_succ, List.getD_cons_zero,
            List.set_cons_zero, List.set_cons_succ]
          exact brs_cons_set_perm xs j x (by simpa using hj)
      | succ i =>
        cases j with
        | zero =>
          simp only [list_swap, List.getD_cons_succ, List.getD_cons_zero,
            List.set_cons_zero, List.set_cons_succ]
          have h := brs_cons_set_perm xs i x (by simpa using hi)
          exact h
        | succ j =>
          simp only [list_swap, List.getD_cons_succ, List.set_cons_succ]
          exact List.Perm.cons x
            (ih i j (by simpa using hi) (by simpa using hj) (by omega))

/-! ### Partition loop lemmas -/

theorem partitionLoop_length (bit : Nat) (l : List Nat) (left right : Int) :
    (partitionLoop bit l left right).1.length = l.length := by
  induction l, left, right using partitionLoop.induct bit with
  | case1 l left right h hb ih =>
    rw [partitionLoop]
    simp only [dif_pos h, if_pos hb]
    exact ih
  | case2 l left right h hb ih =>
    rw [partitionLoop]
    simp only [dif_pos h, if_neg hb]
    rw [ih, list_swap_length]
  | case3 l left right h =>
    rw [partitionLoop]
    simp [dif_neg h]

theorem partitionLoop_left_ge (bit : Nat) (l : List Nat) (left right : Int) :
    left ≤ (partitionLoop bit l left right).2 := by
  induction l, left, right using partitionLoop.induct bit with
  | case1 l left right h hb ih =>
    rw [partitionLoop]
    simp only [dif_pos h, if_pos hb]
    omega
  | case2 l left right h hb ih =>
    rw [partitionLoop]
    simp only [dif_pos h, if_neg hb]
    exact ih
  | case3 l left right h =>
    rw [partitionLoop]
    simp [dif_neg h]

theorem partitionLoop_left_le (bit : Nat) (l : List Nat) (left right : Int)
    (hinit : left ≤ right + 1) :
    (partitionLoop bit l left right).2 ≤ right + 1 := by
  induction l, left, right using partitionLoop.induct bit with
  | case1 l left right h hb ih =>
    rw [partitionLoop]
    simp only [dif_pos h, if_pos hb]
    exact ih (by omega)
  | case2 l left right h hb ih =>
    rw [partitionLoop]
    simp only [dif_pos h, if_neg hb]
    have := ih (by omega)
    omega
  | case3 l left right h =>
    rw [partitionLoop]
    simp only [dif_neg h]
    omega

theorem partitionLoop_frame (bit : Nat) (l : List Nat) (left right : Int)
    (hl : 0 ≤ left) (k : Nat) (hk : (k : Int) < left ∨ right < (k : Int)) :
    (partitionLoop bit l left right).1.getD k 0 = l.getD k 0 := by
  induction l, left, right using partitionLoop.induct bit with
  | case1 l left right h hb ih =>
    rw [partitionLoop]
    simp only [dif_pos h, if_pos hb]
    exact ih (by omega) (by omega)
  | case2 l left right h hb ih =>
    rw [partitionLoop]
    simp only [dif_pos h, if_neg hb]
    rw [ih hl (by omega)]
    exact list_swap_getD_ne l left.toNat right.toNat k (by omega) (by omega)
  | case3 l left right h =>
    rw [partitionLoop]
    simp [dif_neg h]

theorem partitionLoop_perm (bit : Nat) (l : List Nat) (left right : Int)
    (hl : 0 ≤ left) (hr : right < (l.length : Int)) :
    (partitionLoop bit l left right).1.Perm l := by
  induction l, left, right using partitionLoop.induct bit with
  | case1 l left right h hb ih =>
    rw [partitionLoop]
    simp only [dif_pos h, if_pos hb]
    exact ih (by omega) hr
  | case2 l left right h hb ih =>
    rw [partitionLoop]
    simp only [dif_pos h, if_neg hb]
    have hswap : (list_swap l left.toNat right.toNat).Perm l :=
      list_swap_perm l left.toNat right.toNat (by omega) (by omega)
    have hrec := ih hl (by rw [list_swap_length]; omega)
    exact hrec.trans hswap
  | case3 l left right h =>
    rw [partitionLoop]
    simp [dif_neg h]

theorem partitionLoop_post (bit : Nat) (l : List Nat) (left right : Int)
    (hl : 0 ≤ left) (hr : right < (l.length : Int)) :
    (∀ k : Nat, left ≤ (k : Int) → (k : Int) < (partitionLoop bit l left right).2 →
      ((partitionLoop bit l left right).1.getD k 0 >>> bit) &&& 1 = 0) ∧
    (∀ k : Nat, (partitionLoop bit l left right).2 ≤ (k : Int) → (k : Int) ≤ right →
      ((partitionLoop bit l left right).1.getD k 0 >>> bit) &&& 1 = 1) := by
  induction l, left, right using partitionLoop.induct bit with
  | case1 l left right h hb ih =>
    obtain ⟨ih0, ih1⟩ := ih (by omega) hr
    have hfr := partitionLoop_frame bit l (left + 1) right (by omega)
    rw [partitionLoop]
    simp only [dif_pos h, if_pos hb]
    constructor
    · intro k hk1 hk2
      by_cases hkl : left + 1 ≤ (k : Int)
      · exact ih0 k hkl hk2
      · have hkeq : k = left.toNat := by omega
        rw [hfr k (by omega)]
        rw [hkeq]
        exact hb
    · intro k hk1 hk2
      exact ih1 k hk1 hk2
  | case2 l left right h hb ih =>
    have hlen : (list_swap l left.toNat right.toNat).length = l.length :=
      list_swap_length l left.toNat right.toNat
    obtain ⟨ih0, ih1⟩ := ih hl (by rw [hlen]; omega)
    have hfr := partitionLoop_frame bit (list_swap l left.toNat right.toNat) left (right - 1) hl
    rw [partitionLoop]
    simp only [dif_pos h, if_neg hb]
    constructor
    · intro k hk1 hk2
      exact ih0 k hk1 hk2
    · intro k hk1 hk2
      by_cases hkr : (k : Int) ≤ right - 1
      · exact ih1 k hk1 hkr
      · have hkeq : k = right.toNat := by omega
        rw [hfr k (by omega), hkeq]
        rw [list_swap_getD_right l left.toNat right.toNat (by omega)]
        have h2 : (l.getD left.toNat 0 >>> bit) &&& 1 < 2 := by
          rw [Nat.and_one_is_mod]
          exact Nat.mod_lt _ (by norm_num)
        omega
  | case3 l left right h =>
    rw [partitionLoop]
    simp only [dif_neg h]
    constructor
    · intro k hk1 hk2
      omega
    · intro k hk1 hk2
      omega


theorem partitionLoop_locality (bit : Nat) (l : List Nat) (left right : Int) :
    ∀ m : List Nat, 0 ≤ left → l.length = m.length →
    (∀ k : Nat, left ≤ (k : Int) → (k : Int) ≤ right → l.getD k 0 = m.getD k 0) →
    (partitionLoop bit l left right).2 = (partitionLoop bit m left right).2 ∧
    (∀ k : Nat, left ≤ (k : Int) → (k : Int) ≤ right →
      (partitionLoop bit l left right).1.getD k 0 =
        (partitionLoop bit m left right).1.getD k 0) := by
  induction l, left, right using partitionLoop.induct bit with
  | case1 l left right h hb ih =>
    intro m hl hlen hagree
    have hml : m.getD left.toNat 0 = l.getD left.toNat 0 :=
      (hagree left.toNat (by omega) (by omega)).symm
    have hbm : (m.getD left.toNat 0 >>> bit) &&& 1 = 0 := by rw [hml]; exact hb
    obtain ⟨ihfl, ihagree⟩ := ih m (by omega) hlen
      (fun k hk1 hk2 => hagree k (by omega) hk2)
    have hfrl := partitionLoop_frame bit l (left + 1) right (by omega)
    have hfrm := partitionLoop_frame bit m (left + 1) right (by omega)
    have hul : partitionLoop bit l left right = partitionLoop bit l (left + 1) right := by
      rw [partitionLoop]
      simp only [dif_pos h, if_pos hb]
    have hum : partitionLoop bit m left right = partitionLoop bit m (left + 1) right := by
      rw [partitionLoop]
      simp only [dif_pos h, if_pos hbm]
    rw [hul, hum]
    refine ⟨ihfl, fun k hk1 hk2 => ?_⟩
    by_cases hkl : left + 1 ≤ (k : Int)
    · exact ihagree k hkl hk2
    · rw [hfrl k (by omega), hfrm k (by omega)]
      exact hagree k hk1 hk2
  | case2 l left right h hb ih =>
    intro m hl hlen hagree
    have hml : m.getD left.toNat 0 = l.getD left.toNat 0 :=
      (hagree left.toNat (by omega) (by omega)).symm
    have hbm : ¬((m.getD left.toNat 0 >>> bit) &&& 1 = 0) := by rw [hml]; exact hb
    have hlen2 : (list_swap l left.toNat right.toNat).length =
        (list_swap m left.toNat right.toNat).length := by
      rw [list_swap_length, list_swap_length, hlen]
    have hagree2 : ∀ k : Nat, left ≤ (k : Int) → (k : Int) ≤ right - 1 →
        (list_swap l left.toNat right.toNat).getD k 0 =
          (list_swap m left.toNat right.toNat).getD k 0 := by
      intro k hk1 hk2
      by_cases hkl : k = left.toNat
      · subst hkl
        by_cases hlr : left.toNat = right.toNat
        · omega
        · rw [list_swap_getD_left l left.toNat right.toNat hlr,
            list_swap_getD_left m left.toNat right.toNat hlr, hlen]
          by_cases hin : left.toNat < m.length
          · rw [if_pos hin, if_pos hin]
            exact hagree right.toNat (by omega) (by omega)
          · rw [if_neg hin, if_neg hin]
            exact hagree left.toNat (by omega) (by omega)
      · have hkr : k ≠ right.toNat := by omega
        rw [list_swap_getD_ne l _ _ k hkl hkr, list_swap_getD_ne m _ _ k hkl hkr]
        exact hagree k hk1 (by omega)
    obtain ⟨ihfl, ihagree⟩ := ih (list_swap m left.toNat right.toNat) hl hlen2 hagree2
    have hswapr : (list_swap l left.toNat right.toNat).getD right.toNat 0 =
        (list_swap m left.toNat right.toNat).getD right.toNat 0 := by
      by_cases hin : right.toNat < l.length
      · rw [list_swap_getD_right l _ _ hin, list_swap_getD_right m _ _ (by omega)]
        exact hagree left.toNat (by omega) (by omega)
      · rw [brs_getD_oob _ _ (by rw [list_swap_length]; omega),
          brs_getD_oob _ _ (by rw [list_swap_length]; omega)]
    have hfrl := partitionLoop_frame bit (list_swap l left.toNat right.toNat)
      left (right - 1) hl
    have hfrm := partitionLoop_frame bit (list_swap m left.toNat right.toNat)
      left (right - 1) hl
    have hul : partitionLoop bit l left right =
        partitionLoop bit (list_swap l left.toNat right.toNat) left (right - 1) := by
      rw [partitionLoop]
      simp only [dif_pos h, if_neg hb]
    have hum : partitionLoop bit m left right =
        partitionLoop bit (list_swap m left.toNat right.toNat) left (right - 1) := by
      rw [partitionLoop]
      simp only [dif_pos h, if_neg hbm]
    rw [hul, hum]
    refine ⟨ihfl, fun k hk1 hk2 => ?_⟩
    by_cases hkr : (k : Int) ≤ right - 1
    · exact ihagree k hk1 hkr
    · have hkeq : k = right.toNat := by omega
      rw [hfrl k (by omega), hfrm k (by omega), hkeq]
      exact hswapr
  | case3 l left right h =>
    intro m hl hlen hagree
    have hul : partitionLoop bit l left right = (l, left) := by
      rw [partitionLoop]
      simp only [dif_neg h]
    have hum : partitionLoop bit m left right = (m, left) := by
      rw [partitionLoop]
      simp only [dif_neg h]
    rw [hul, hum]
    exact ⟨rfl, hagree⟩

/-! ### Recursive variant: basic lemmas -/

theorem bin_radix_sort_rec_inm_base (l : List Nat) (start size bit : Int)
    (h : size ≤ 1 ∨ bit < 0) : bin_radix_sort_rec_inm l start size bit = l := by
  rw [bin_radix_sort_rec_inm]
  simp only [dif_pos h]

theorem bin_radix_sort_rec_inm_step (l : List Nat) (start size bit : Int)
    (h : ¬(size ≤ 1 ∨ bit < 0)) :
    bin_radix_sort_rec_inm l start size bit =
      bin_radix_sort_rec_inm
        (bin_radix_sort_rec_inm (partitionLoop bit.toNat l start (start + size - 1)).1
          start ((partitionLoop bit.toNat l start (start + size - 1)).2 - start) (bit - 1))
        (partitionLoop bit.toNat l start (start + size - 1)).2
        (size - ((partitionLoop bit.toNat l start (start + size - 1)).2 - start))
        (bit - 1) := by
  rw [bin_radix_sort_rec_inm]
  simp only [dif_neg h]

theorem bin_radix_sort_rec_inm_length (l : List Nat) (start size bit : Int) :
    (bin_radix_sort_rec_inm l start size bit).length = l.length := by
  induction l, start, size, bit using bin_radix_sort_rec_inm.induct with
  | case1 l start size bit h =>
    rw [bin_radix_sort_rec_inm_base l start size bit h]
  | case2 l start size bit h ih1 ih2 =>
    rw [bin_radix_sort_rec_inm_step l start size bit h]
    rw [ih2, ih1, partitionLoop_length]

theorem bin_radix_sort_rec_inm_frame (l : List Nat) (start size bit : Int)
    (hs : 0 ≤ start) (k : Nat)
    (hk : (k : Int) < start ∨ start + size ≤ (k : Int)) :
    (bin_radix_sort_rec_inm l start size bit).getD k 0 = l.getD k 0 := by
  induction l, start, size, bit using bin_radix_sort_rec_inm.induct with
  | case1 l start size bit h =>
    rw [bin_radix_sort_rec_inm_base l start size bit h]
  | case2 l start size bit h ih1 ih2 =>
    have hge := partitionLoop_left_ge bit.toNat l start (start + size - 1)
    have hle := partitionLoop_left_le bit.toNat l start (start + size - 1) (by omega)
    rw [bin_radix_sort_rec_inm_step l start size bit h]
    rw [ih2 (by omega) (by omega), ih1 hs (by omega)]
    exact partitionLoop_frame bit.toNat l start (start + size - 1) hs k (by omega)

theorem bin_radix_sort_rec_inm_perm (l : List Nat) (start size bit : Int)
    (hs : 0 ≤ start) (hsize : start + size ≤ (l.length : Int)) :
    (bin_radix_sort_rec_inm l start size bit).Perm l := by
  induction l, start, size, bit using bin_radix_sort_rec_inm.induct with
  | case1 l start size bit h =>
    rw [bin_radix_sort_rec_inm_base l start size bit h]
  | case2 l start size bit h ih1 ih2 =>
    have hge := partitionLoop_left_ge bit.toNat l start (start + size - 1)
    have hle := partitionLoop_left_le bit.toNat l start (start + size - 1) (by omega)
    have hplen := partitionLoop_length bit.toNat l start (start + size - 1)
    have hilen := bin_radix_sort_rec_inm_length
      (partitionLoop bit.toNat l start (start + size - 1)).1 start
      ((partitionLoop bit.toNat l start (start + size - 1)).2 - start) (bit - 1)
    rw [bin_radix_sort_rec_inm_step l start size bit h]
    have hp : (partitionLoop bit.toNat l start (start + size - 1)).1.Perm l :=
      partitionLoop_perm bit.toNat l start (start + size - 1) hs (by omega)
    have h2 := ih1 hs (by omega)
    have h3 := ih2 (by omega) (by rw [hilen, hplen]; omega)
    exact (h3.trans h2).trans hp

/-! ### Contiguous sub-ranges of the sequence -/

/-- The contiguous sub-range of `l` of length `n` starting at index `s`
(the contents of a view `(s, n)`). -/
def rangeList (l : List Nat) (s n : Nat) : List Nat := (l.drop s).take n

theorem rangeList_length (l : List Nat) (s n : Nat) :
    (rangeList l s n).length = min n (l.length - s) := by
  simp [rangeList]

theorem rangeList_getD (l : List Nat) (s n i : Nat) (hi : i < n) :
    (rangeList l s n).getD i 0 = l.getD (s + i) 0 := by
  by_cases hlen : i < (rangeList l s n).length
  · have hil : s + i < l.length := by
      rw [rangeList_length] at hlen
      omega
    rw [List.getD_eq_getElem _ 0 hlen, List.getD_eq_getElem _ 0 hil]
    simp [rangeList, List.getElem_take, List.getElem_drop]
  · rw [rangeList_length] at hlen
    rw [brs_getD_oob _ _ (by rw [rangeList_length]; omega),
      brs_getD_oob _ _ (by omega)]

theorem rangeList_forall (l : List Nat) (s n : Nat) (P : Nat → Prop)
    (hsn : s + n ≤ l.length) :
    (∀ x ∈ rangeList l s n, P x) ↔
      (∀ k : Nat, s ≤ k → k < s + n → P (l.getD k 0)) := by
  have hlen : (rangeList l s n).length = n := by
    rw [rangeList_length]
    omega
  constructor
  · intro h k hk1 hk2
    have hgd : l.getD k 0 = (rangeList l s n).getD (k - s) 0 := by
      rw [rangeList_getD l s n (k - s) (by omega)]
      congr 1
      omega
    rw [hgd, List.getD_eq_getElem _ 0 (by omega)]
    exact h _ (List.getElem_mem _)
  · intro h x hx
    obtain ⟨i, hi, hgx⟩ := List.mem_iff_getElem.mp hx
    have hin : i < n := by omega
    rw [← hgx, ← List.getD_eq_getElem _ 0 hi, rangeList_getD l s n i hin]
    exact h (s + i) (by omega) (by omega)

theorem rangeList_decomp (l : List Nat) (s n : Nat) :
    l = l.take s ++ rangeList l s n ++ l.drop (s + n) := by
  have h1 : (l.drop s).take n ++ (l.drop s).drop n = l.drop s :=
    List.take_append_drop n (l.drop s)
  have h2 : (l.drop s).drop n = l.drop (s + n) := by
    rw [List.drop_drop, Nat.add_comm]
  calc l = l.take s ++ l.drop s := (List.take_append_drop s l).symm
    _ = l.take s ++ (rangeList l s n ++ l.drop (s + n)) := by
        rw [← h2, rangeList, h1]
    _ = l.take s ++ rangeList l s n ++ l.drop (s + n) := by
        rw [List.append_assoc]

theorem rangeList_perm_of_perm_frame (l m : List Nat) (s n : Nat)
    (hperm : l.Perm m)
    (hframe : ∀ k : Nat, k < s ∨ s + n ≤ k → l.getD k 0 = m.getD k 0)
    (hsn : s + n ≤ l.length) :
    (rangeList l s n).Perm (rangeList m s n) := by
  have hlen : l.length = m.length := hperm.length_eq
  have htake : l.take s = m.take s := by
    refine List.ext_getElem (by simp [hlen]) fun i h1 h2 => ?_
    have hi : i < s := by
      simp only [List.length_take] at h1
      omega
    have hil : i < l.length := by
      simp only [List.length_take] at h1
      omega
    rw [List.getElem_take, List.getElem_take]
    rw [← List.getD_eq_getElem l 0 hil, ← List.getD_eq_getElem m 0 (by omega)]
    exact hframe i (Or.inl hi)
  have hdrop : l.drop (s + n) = m.drop (s + n) := by
    refine List.ext_getElem (by simp [hlen]) fun i h1 h2 => ?_
    have hil : s + n + i < l.length := by
      simp only [List.length_drop] at h1
      omega
    rw [List.getElem_drop, List.getElem_drop]
    rw [← List.getD_eq_getElem l 0 hil, ← List.getD_eq_getElem m 0 (by omega)]
    exact hframe (s + n + i) (Or.inr (by omega))
  have hml : (↑l : Multiset Nat) = ↑m := Multiset.coe_eq_coe.mpr hperm
  rw [rangeList_decomp l s n, rangeList_decomp m s n] at hml
  simp only [← Multiset.coe_add] at hml
  rw [htake, hdrop] at hml
  have hcan : (↑(rangeList l s n) : Multiset Nat) = ↑(rangeList m s n) := by
    have h1 := add_right_cancel hml
    exact add_left_cancel h1
  exact Multiset.coe_eq_coe.mp hcan

theorem brs_forall_range_transfer (X Y : List Nat) (s n : Nat) (P : Nat → Prop)
    (hperm : Y.Perm X)
    (hframe : ∀ k : Nat, k < s ∨ s + n ≤ k → Y.getD k 0 = X.getD k 0)
    (hsn : s + n ≤ Y.length)
    (hX : ∀ k : Nat, s ≤ k → k < s + n → P (X.getD k 0)) :
    ∀ k : Nat, s ≤ k → k < s + n → P (Y.getD k 0) := by
  have hr : (rangeList Y s n).Perm (rangeList X s n) :=
    rangeList_perm_of_perm_frame Y X s n hperm hframe hsn
  have hXlen : s + n ≤ X.length := by
    rw [← hperm.length_eq]
    exact hsn
  refine (rangeList_forall Y s n P hsn).mp ?_
  intro x hx
  exact (rangeList_forall X s n P hXlen).mpr hX x (hr.subset hx)

/-! ### Bit arithmetic -/

theorem brs_mod_two_pow_succ (x c : Nat) :
    x % 2 ^ (c + 1) = 2 ^ c * ((x >>> c) &&& 1) + x % 2 ^ c := by
  rw [Nat.and_one_is_mod, Nat.shiftRight_eq_div_pow, Nat.pow_succ, Nat.mod_mul]
  ring

/-- Core invariant of the recursive variant: after `bin_radix_sort_rec_inm`
runs on the view `(start, size)` at bit index `bit`, the view is sorted with
respect to the low `bit + 1` bits of its elements (their values modulo
`2 ^ (bit + 1)`). -/
theorem bin_radix_sort_rec_inm_sorted (l : List Nat) (start size bit : Int) :
    0 ≤ start → start + size ≤ (l.length : Int) →
    ∀ i j : Nat, start ≤ (i : Int) → i ≤ j → (j : Int) < start + size →
    (bin_radix_sort_rec_inm l start size bit).getD i 0 % 2 ^ (bit + 1).toNat ≤
      (bin_radix_sort_rec_inm l start size bit).getD j 0 % 2 ^ (bit + 1).toNat := by
  induction l, start, size, bit using bin_radix_sort_rec_inm.induct with
  | case1 l start size bit h =>
    intro hs hsize i j hi hij hj
    rw [bin_radix_sort_rec_inm_base l start size bit h]
    rcases h with h | h
    · have hieq : i = j := by omega
      subst hieq
      exact le_refl _
    · have h0 : (bit + 1).toNat = 0 := by omega
      rw [h0, pow_zero, Nat.mod_one, Nat.mod_one]
  | case2 l start size bit h ih1 ih2 =>
    intro hs hsize i j hi hij hj
    obtain ⟨hsz, hbit⟩ := not_or.mp h
    rw [bin_radix_sort_rec_inm_step l start size bit h]
    set fl := (partitionLoop bit.toNat l start (start + size - 1)).2 with hfl
    set A := (partitionLoop bit.toNat l start (start + size - 1)).1 with hA
    set S1 := bin_radix_sort_rec_inm A start (fl - start) (bit - 1) with hS1
    set S := bin_radix_sort_rec_inm S1 fl (size - (fl - start)) (bit - 1) with hS
    have hge : start ≤ fl := partitionLoop_left_ge bit.toNat l start (start + size - 1)
    have hle : fl ≤ start + size := by
      have := partitionLoop_left_le bit.toNat l start (start + size - 1) (by omega)
      omega
    have hAlen : A.length = l.length :=
      partitionLoop_length bit.toNat l start (start + size - 1)
    have hS1len : S1.length = A.length :=
      bin_radix_sort_rec_inm_length A start (fl - start) (bit - 1)
    have hSlen : S.length = S1.length :=
      bin_radix_sort_rec_inm_length S1 fl (size - (fl - start)) (bit - 1)
    obtain ⟨post0, post1⟩ :=
      partitionLoop_post bit.toNat l start (start + size - 1) hs (by omega)
    have hS1perm : S1.Perm A :=
      bin_radix_sort_rec_inm_perm A start (fl - start) (bit - 1) hs (by omega)
    have hSperm : S.Perm S1 :=
      bin_radix_sort_rec_inm_perm S1 fl (size - (fl - start)) (bit - 1)
        (by omega) (by omega)
    have hS1frame : ∀ k : Nat, (k : Int) < start ∨ start + (fl - start) ≤ (k : Int) →
        S1.getD k 0 = A.getD k 0 :=
      fun k hk => bin_radix_sort_rec_inm_frame A start (fl - start) (bit - 1) hs k hk
    have hSframe : ∀ k : Nat, (k : Int) < fl ∨ fl + (size - (fl - start)) ≤ (k : Int) →
        S.getD k 0 = S1.getD k 0 :=
      fun k hk =>
        bin_radix_sort_rec_inm_frame S1 fl (size - (fl - start)) (bit - 1) (by omega) k hk
    have hbit0S1 : ∀ k : Nat, start.toNat ≤ k → k < start.toNat + (fl - start).toNat →
        (S1.getD k 0 >>> bit.toNat) &&& 1 = 0 := by
      refine brs_forall_range_transfer A S1 start.toNat ((fl - start).toNat)
        (fun x => (x >>> bit.toNat) &&& 1 = 0) hS1perm ?_ (by omega) ?_
      · intro k hk
        exact hS1frame k (by omega)
      · intro k hk1 hk2
        exact post0 k (by omega) (by omega)
    have hbit1S1 : ∀ k : Nat, fl ≤ (k : Int) → (k : Int) < start + size →
        (S1.getD k 0 >>> bit.toNat) &&& 1 = 1 := by
      intro k hk1 hk2
      rw [hS1frame k (by omega)]
      exact post1 k hk1 (by omega)
    have hbit1S : ∀ k : Nat, fl.toNat ≤ k →
        k < fl.toNat + (size - (fl - start)).toNat →
        (S.getD k 0 >>> bit.toNat) &&& 1 = 1 := by
      refine brs_forall_range_transfer S1 S fl.toNat ((size - (fl - start)).toNat)
        (fun x => (x >>> bit.toNat) &&& 1 = 1) hSperm ?_ (by omega) ?_
      · intro k hk
        exact hSframe k (by omega)
      · intro k hk1 hk2
        exact hbit1S1 k (by omega) (by omega)
    have hbit0S : ∀ k : Nat, start ≤ (k : Int) → (k : Int) < fl →
        (S.getD k 0 >>> bit.toNat) &&& 1 = 0 := by
      intro k hk1 hk2
      rw [hSframe k (by omega)]
      exact hbit0S1 k (by omega) (by omega)
    have hbt : (bit - 1 + 1).toNat = bit.toNat := by omega
    have hsort1 : ∀ a b : Nat, start ≤ (a : Int) → a ≤ b → (b : Int) < fl →
        S.getD a 0 % 2 ^ bit.toNat ≤ S.getD b 0 % 2 ^ bit.toNat := by
      intro a b ha hab hb
      rw [hSframe a (by omega), hSframe b (by omega)]
      have hres := ih1 hs (by omega) a b ha hab (by omega)
      rwa [hbt] at hres
    have hsort2 : ∀ a b : Nat, fl ≤ (a : Int) → a ≤ b → (b : Int) < start + size →
        S.getD a 0 % 2 ^ bit.toNat ≤ S.getD b 0 % 2 ^ bit.toNat := by
      intro a b ha hab hb
      have hres := ih2 (by omega) (by omega) a b ha hab (by omega)
      rwa [hbt] at hres
    have hbt1 : (bit + 1).toNat = bit.toNat + 1 := by omega
    rw [hbt1, brs_mod_two_pow_succ (S.getD i 0) bit.toNat,
      brs_mod_two_pow_succ (S.getD j 0) bit.toNat]
    have hpow : 0 < 2 ^ bit.toNat := Nat.pow_pos (by norm_num)
    have hmi : S.getD i 0 % 2 ^ bit.toNat < 2 ^ bit.toNat := Nat.mod_lt _ hpow
    have hmj : S.getD j 0 % 2 ^ bit.toNat < 2 ^ bit.toNat := Nat.mod_lt _ hpow
    by_cases hjf : (j : Int) < fl
    · rw [hbit0S i hi (by omega), hbit0S j (by omega) hjf]
      have := hsort1 i j hi hij hjf
      omega
    · by_cases hif : (i : Int) < fl
      · rw [hbit0S i hi hif, hbit1S j (by omega) (by omega)]
        omega
      · rw [hbit1S i (by omega) (by omega), hbit1S j (by omega) (by omega)]
        have := hsort2 i j (by omega) hij hj
        omega

/-- The recursive variant reads only its own view: two sequences of equal
length that agree on the view are mapped to sequences that agree on the
view. -/
theorem bin_radix_sort_rec_inm_locality (l : List Nat) (start size bit : Int) :
    ∀ m : List Nat, 0 ≤ start → l.length = m.length →
    (∀ k : Nat, start ≤ (k : Int) → (k : Int) < start + size → l.getD k 0 = m.getD k 0) →
    ∀ k : Nat, start ≤ (k : Int) → (k : Int) < start + size →
    (bin_radix_sort_rec_inm l start size bit).getD k 0 =
      (bin_radix_sort_rec_inm m start size bit).getD k 0 := by
  induction l, start, size, bit using bin_radix_sort_rec_inm.induct with
  | case1 l start size bit h =>
    intro m hs hlen hagree k hk1 hk2
    rw [bin_radix_sort_rec_inm_base l start size bit h,
      bin_radix_sort_rec_inm_base m start size bit h]
    exact hagree k hk1 hk2
  | case2 l start size bit h ih1 ih2 =>
    intro m hs hlen hagree k hk1 hk2
    obtain ⟨hsz, hbit⟩ := not_or.mp h
    obtain ⟨hfl_eq, hA_agree⟩ :=
      partitionLoop_locality bit.toNat l start (start + size - 1) m hs hlen
        (fun k' hk1' hk2' => hagree k' hk1' (by omega))
    rw [bin_radix_sort_rec_inm_step l start size bit h,
      bin_radix_sort_rec_inm_step m start size bit h, ← hfl_eq]
    set fl := (partitionLoop bit.toNat l start (start + size - 1)).2 with hfldef
    set A := (partitionLoop bit.toNat l start (start + size - 1)).1 with hAdef
    set B := (partitionLoop bit.toNat m start (start + size - 1)).1 with hBdef
    have hge : start ≤ fl := partitionLoop_left_ge bit.toNat l start (start + size - 1)
    have hle : fl ≤ start + size := by
      have := partitionLoop_left_le bit.toNat l start (start + size - 1) (by omega)
      omega
    have hAlen : A.length = l.length :=
      partitionLoop_length bit.toNat l start (start + size - 1)
    have hBlen : B.length = m.length :=
      partitionLoop_length bit.toNat m start (start + size - 1)
    have hABlen : A.length = B.length := by omega
    have hAB : ∀ k' : Nat, start ≤ (k' : Int) → (k' : Int) < start + size →
        A.getD k' 0 = B.getD k' 0 :=
      fun k' hk1' hk2' => hA_agree k' hk1' (by omega)
    have hS1agree : ∀ k' : Nat, start ≤ (k' : Int) → (k' : Int) < start + size →
        (bin_radix_sort_rec_inm A start (fl - start) (bit - 1)).getD k' 0 =
          (bin_radix_sort_rec_inm B start (fl - start) (bit - 1)).getD k' 0 := by
      intro k' hk1' hk2'
      by_cases hkfl : (k' : Int) < fl
      · exact ih1 B hs hABlen (fun a ha1 ha2 => hAB a ha1 (by omega)) k' hk1' (by omega)
      · rw [bin_radix_sort_rec_inm_frame A start (fl - start) (bit - 1) hs k' (by omega),
          bin_radix_sort_rec_inm_frame B start (fl - start) (bit - 1) hs k' (by omega)]
        exact hAB k' hk1' hk2'
    have hS1len : (bin_radix_sort_rec_inm A start (fl - start) (bit - 1)).length =
        (bin_radix_sort_rec_inm B start (fl - start) (bit - 1)).length := by
      rw [bin_radix_sort_rec_inm_length, bin_radix_sort_rec_inm_length]
      exact hABlen
    by_cases hkfl : fl ≤ (k : Int)
    · exact ih2 (bin_radix_sort_rec_inm B start (fl - start) (bit - 1)) (by omega) hS1len
        (fun a ha1 ha2 => hS1agree a (by omega) (by omega)) k hkfl (by omega)
    · rw [bin_radix_sort_rec_inm_frame _ fl (size - (fl - start)) (bit - 1) (by omega) k
        (by omega),
        bin_radix_sort_rec_inm_frame _ fl (size - (fl - start)) (bit - 1) (by omega) k
        (by omega)]
      exact hS1agree k hk1 hk2

/-- Two runs of the recursive variant on disjoint views commute. -/
theorem bin_radix_sort_rec_inm_comm (l : List Nat) (s1 n1 b1 s2 n2 b2 : Int)
    (hs1 : 0 ≤ s1) (hs2 : 0 ≤ s2) (hdisj : s1 + n1 ≤ s2 ∨ s2 + n2 ≤ s1) :
    bin_radix_sort_rec_inm (bin_radix_sort_rec_inm l s2 n2 b2) s1 n1 b1 =
      bin_radix_sort_rec_inm (bin_radix_sort_rec_inm l s1 n1 b1) s2 n2 b2 := by
  have hlen2 : (bin_radix_sort_rec_inm l s2 n2 b2).length = l.length :=
    bin_radix_sort_rec_inm_length l s2 n2 b2
  have hlen1 : (bin_radix_sort_rec_inm l s1 n1 b1).length = l.length :=
    bin_radix_sort_rec_inm_length l s1 n1 b1
  apply brs_list_eq_of_getD
  · simp only [bin_radix_sort_rec_inm_length]
  · intro k
    by_cases hk1 : s1 ≤ (k : Int) ∧ (k : Int) < s1 + n1
    · have hout2 : (k : Int) < s2 ∨ s2 + n2 ≤ (k : Int) := by omega
      have hL : (bin_radix_sort_rec_inm (bin_radix_sort_rec_inm l s2 n2 b2) s1 n1 b1).getD k 0 =
          (bin_radix_sort_rec_inm l s1 n1 b1).getD k 0 := by
        apply bin_radix_sort_rec_inm_locality (bin_radix_sort_rec_inm l s2 n2 b2) s1 n1 b1
          l hs1 hlen2 _ k hk1.1 hk1.2
        intro a ha1 ha2
        exact bin_radix_sort_rec_inm_frame l s2 n2 b2 hs2 a (by omega)
      rw [hL, bin_radix_sort_rec_inm_frame _ s2 n2 b2 hs2 k hout2]
    · by_cases hk2 : s2 ≤ (k : Int) ∧ (k : Int) < s2 + n2
      · have hout1 : (k : Int) < s1 ∨ s1 + n1 ≤ (k : Int) := by omega
        have hR : (bin_radix_sort_rec_inm (bin_radix_sort_rec_inm l s1 n1 b1) s2 n2 b2).getD k 0 =
            (bin_radix_sort_rec_inm l s2 n2 b2).getD k 0 := by
          apply bin_radix_sort_rec_inm_locality (bin_radix_sort_rec_inm l s1 n1 b1) s2 n2 b2
            l hs2 hlen1 _ k hk2.1 hk2.2
          intro a ha1 ha2
          exact bin_radix_sort_rec_inm_frame l s1 n1 b1 hs1 a (by omega)
        rw [hR, bin_radix_sort_rec_inm_frame _ s1 n1 b1 hs1 k hout1]
      · have hout1 : (k : Int) < s1 ∨ s1 + n1 ≤ (k : Int) := by omega
        have hout2 : (k : Int) < s2 ∨ s2 + n2 ≤ (k : Int) := by omega
        rw [bin_radix_sort_rec_inm_frame _ s1 n1 b1 hs1 k hout1,
          bin_radix_sort_rec_inm_frame _ s2 n2 b2 hs2 k hout2,
          bin_radix_sort_rec_inm_frame _ s2 n2 b2 hs2 k hout2,
          bin_radix_sort_rec_inm_frame _ s1 n1 b1 hs1 k hout1]

/-! ### Equivalence of the two variants -/

theorem bin_radix_sort_it_loop_nil (l : List Nat) :
    bin_radix_sort_it_loop l [] = l := by
  rw [bin_radix_sort_it_loop]

theorem bin_radix_sort_it_loop_base (l : List Nat) (start size bit : Int)
    (rest : List (Int × Int × Int)) (h : size ≤ 1 ∨ bit < 0) :
    bin_radix_sort_it_loop l ((start, size, bit) :: rest) =
      bin_radix_sort_it_loop l rest := by
  rw [bin_radix_sort_it_loop]
  simp only [dif_pos h]

theorem bin_radix_sort_it_loop_step (l : List Nat) (start size bit : Int)
    (rest : List (Int × Int × Int)) (h : ¬(size ≤ 1 ∨ bit < 0)) :
    bin_radix_sort_it_loop l ((start, size, bit) :: rest) =
      bin_radix_sort_it_loop (partitionLoop bit.toNat l start (start + size - 1)).1
        (((partitionLoop bit.toNat l start (start + size - 1)).2,
            size - ((partitionLoop bit.toNat l start (start + size - 1)).2 - start),
            bit - 1) ::
          (start, (partitionLoop bit.toNat l start (start + size - 1)).2 - start,
            bit - 1) :: rest) := by
  rw [bin_radix_sort_it_loop]
  simp only [dif_neg h]

/-- Run one pending task with the recursive variant. -/
def runTask (t : Int × Int × Int) (l : List Nat) : List Nat :=
  bin_radix_sort_rec_inm l t.1 t.2.1 t.2.2

/-- Run all pending tasks of a work-list, most recently pushed first. -/
def applyTasks : List (Int × Int × Int) → List Nat → List Nat
  | [], l => l
  | t :: rest, l => applyTasks rest (runTask t l)

/-- The explicit-stack loop computes exactly the recursive sort of each of
its pending tasks, applied top of stack first.  The two processing orders
coincide because the two sub-tasks of a split are disjoint and the
recursive sort only touches its own view. -/
theorem bin_radix_sort_it_loop_eq_applyTasks (l : List Nat)
    (stack : List (Int × Int × Int)) :
    (∀ t ∈ stack, 0 ≤ t.1) →
    bin_radix_sort_it_loop l stack = applyTasks stack l := by
  induction l, stack using bin_radix_sort_it_loop.induct with
  | case1 l =>
    intro _
    rw [bin_radix_sort_it_loop_nil]
    rfl
  | case2 l start size bit rest h ih =>
    intro hinv
    rw [bin_radix_sort_it_loop_base l start size bit rest h]
    rw [ih (fun t ht => hinv t (List.mem_cons_of_mem _ ht))]
    simp only [applyTasks, runTask]
    rw [bin_radix_sort_rec_inm_base l start size bit h]
  | case3 l start size bit rest h ih =>
    intro hinv
    have hs : 0 ≤ start := hinv (start, size, bit) (List.mem_cons_self _ _)
    have hge : start ≤ (partitionLoop bit.toNat l start (start + size - 1)).2 :=
      partitionLoop_left_ge bit.toNat l start (start + size - 1)
    have hinv2 : ∀ t ∈ (((partitionLoop bit.toNat l start (start + size - 1)).2,
        size - ((partitionLoop bit.toNat l start (start + size - 1)).2 - start),
        bit - 1) ::
        (start, (partitionLoop bit.toNat l start (start + size - 1)).2 - start,
        bit - 1) :: rest), 0 ≤ t.1 := by
      intro t ht
      rcases List.mem_cons.mp ht with rfl | ht2
      · exact le_trans hs hge
      · rcases List.mem_cons.mp ht2 with rfl | ht3
        · exact hs
        · exact hinv t (List.mem_cons_of_mem _ ht3)
    rw [bin_radix_sort_it_loop_step l start size bit rest h]
    rw [ih hinv2]
    simp only [applyTasks, runTask]
    congr 1
    rw [bin_radix_sort_rec_inm_step l start size bit h]
    exact bin_radix_sort_rec_inm_comm
      (partitionLoop bit.toNat l start (start + size - 1)).1
      start ((partitionLoop bit.toNat l start (start + size - 1)).2 - start) (bit - 1)
      (partitionLoop bit.toNat l start (start + size - 1)).2
      (size - ((partitionLoop bit.toNat l start (start + size - 1)).2 - start)) (bit - 1)
      hs (by omega) (Or.inl (by omega))

/-- The two variants compute the same function, on every input. -/
theorem bin_radix_sort_rec_eq_it_general (W : Nat) (l : List Nat) :
    bin_radix_sort_rec W l = bin_radix_sort_it W l := by
  rw [bin_radix_sort_rec, bin_radix_sort_it]
  rw [bin_radix_sort_it_loop_eq_applyTasks l _ ?_]
  · simp only [applyTasks, runTask]
  · intro t ht
    rcases List.mem_cons.mp ht with rfl | ht2
    · exact le_refl 0
    · simp at ht2

/-! ### Instrumented runs (recursion depth, view list, stack occupancy,
step counts) -/

/-- Call-tree statistics of one `bin_radix_sort_rec_inm` call: `depth` is the
number of nested partitioning levels (base-case calls contribute `0`, a
partitioning call contributes `1` plus the deeper of its two recursive
calls), and `views` lists the `(start, size)` view of every call made,
base-case calls included. -/
structure RecRun where
  depth : Nat
  views : List (Int × Int)

/-- Instrumented mirror of `bin_radix_sort_rec_inm` computing `RecRun`. -/
def bin_radix_sort_rec_inm_run (l : List Nat) (start size bit : Int) : RecRun :=
  if _h : size ≤ 1 ∨ bit < 0 then ⟨0, [(start, size)]⟩
  else
    ⟨1 + max
        (bin_radix_sort_rec_inm_run (partitionLoop bit.toNat l start (start + size - 1)).1
          start ((partitionLoop bit.toNat l start (start + size - 1)).2 - start)
          (bit - 1)).depth
        (bin_radix_sort_rec_inm_run
          (bin_radix_sort_rec_inm (partitionLoop bit.toNat l start (start + size - 1)).1
            start ((partitionLoop bit.toNat l start (start + size - 1)).2 - start) (bit - 1))
          (partitionLoop bit.toNat l start (start + size - 1)).2
          (size - ((partitionLoop bit.toNat l start (start + size - 1)).2 - start))
          (bit - 1)).depth,
      (start, size) ::
        ((bin_radix_sort_rec_inm_run (partitionLoop bit.toNat l start (start + size - 1)).1
          start ((partitionLoop bit.toNat l start (start + size - 1)).2 - start)
          (bit - 1)).views ++
        (bin_radix_sort_rec_inm_run
          (bin_radix_sort_rec_inm (partitionLoop bit.toNat l start (start + size - 1)).1
            start ((partitionLoop bit.toNat l start (start + size - 1)).2 - start) (bit - 1))
          (partitionLoop bit.toNat l start (start + size - 1)).2
          (size - ((partitionLoop bit.toNat l start (start + size - 1)).2 - start))
          (bit - 1)).views)⟩
termination_by (bit + 1).toNat
decreasing_by
  all_goals simp_wf
  all_goals omega

/-- Statistics of a run of the `bin_radix_sort_it` work-list loop started in
a given state: `pops` counts loop iterations (each pops one task);
`expands` counts the iterations that actually partition (size `≥ 2` and
bit `≥ 0`) and push two sub-tasks; `tasks` lists every task popped over the
run, in pop order — since the loop runs until the work-list is empty, this
is every task ever created. -/
structure ItRun where
  pops : Nat
  expands : Nat
  tasks : List (Int × Int × Int)

/-- Instrumented mirror of the `bin_radix_sort_it` work-list loop computing
`ItRun`. -/
def bin_radix_sort_it_run (l : List Nat) (stack : List (Int × Int × Int)) : ItRun :=
  match stack with
  | [] => ⟨0, 0, []⟩
  | (start, size, bit) :: rest =>
    if h : size ≤ 1 ∨ bit < 0 then
      ⟨(bin_radix_sort_it_run l rest).pops + 1,
        (bin_radix_sort_it_run l rest).expands,
        (start, size, bit) :: (bin_radix_sort_it_run l rest).tasks⟩
    else
      ⟨(bin_radix_sort_it_run (partitionLoop bit.toNat l start (start + size - 1)).1
          (((partitionLoop bit.toNat l start (start + size - 1)).2,
              size - ((partitionLoop bit.toNat l start (start + size - 1)).2 - start),
              bit - 1) ::
            (start, (partitionLoop bit.toNat l start (start + size - 1)).2 - start,
              bit - 1) :: rest)).pops + 1,
        (bin_radix_sort_it_run (partitionLoop bit.toNat l start (start + size - 1)).1
          (((partitionLoop bit.toNat l start (start + size - 1)).2,
              size - ((partitionLoop bit.toNat l start (start + size - 1)).2 - start),
              bit - 1) ::
            (start, (partitionLoop bit.toNat l start (start + size - 1)).2 - start,
              bit - 1) :: rest)).expands + 1,
        (start, size, bit) ::
          (bin_radix_sort_it_run (partitionLoop bit.toNat l start (start + size - 1)).1
            (((partitionLoop bit.toNat l start (start + size - 1)).2,
                size - ((partitionLoop bit.toNat l start (start + size - 1)).2 - start),
                bit - 1) ::
              (start, (partitionLoop bit.toNat l start (start + size - 1)).2 - start,
                bit - 1) :: rest)).tasks⟩
termination_by stackWeight stack
decreasing_by
  all_goals simp only [stackWeight_cons]
  · have : 0 < taskWeight (start, size, bit) := Nat.pow_pos (by norm_num)
    omega
  all_goals
    have h1 : (bit - 1 + 1).toNat = bit.toNat := by omega
  all_goals
    have h2 : (bit + 1).toNat = bit.toNat + 1 := by omega
  all_goals simp only [taskWeight, h1, h2]
  all_goals
    have h3 : 0 < 3 ^ bit.toNat := Nat.pow_pos (by norm_num)
  all_goals
    calc 3 ^ bit.toNat + (3 ^ bit.toNat + stackWeight rest)
        < 3 ^ bit.toNat * 3 + stackWeight rest := by omega
      _ = 3 ^ (bit.toNat + 1) + stackWeight rest := by rw [Nat.pow_succ]

/-- The largest number of simultaneously pending tasks over all states of a
run of the `bin_radix_sort_it` work-list loop, the state the run starts in
included.  The C++ code stores the pending tasks in the auxiliary array
`stack[0..top]`, so every access `stack[++top]`/`stack[top--]` of the run
uses an index smaller than this value, and it is attained: the deepest
write touches index `peak - 1`. -/
def bin_radix_sort_it_peak_loop (l : List Nat)
    (stack : List (Int × Int × Int)) : Nat :=
  match stack with
  | [] => 0
  | (start, size, bit) :: rest =>
    if h : size ≤ 1 ∨ bit < 0 then
      max (rest.length + 1) (bin_radix_sort_it_peak_loop l rest)
    else
      max (rest.length + 1)
        (bin_radix_sort_it_peak_loop (partitionLoop bit.toNat l start (start + size - 1)).1
          (((partitionLoop bit.toNat l start (start + size - 1)).2,
              size - ((partitionLoop bit.toNat l start (start + size - 1)).2 - start),
              bit - 1) ::
            (start, (partitionLoop bit.toNat l start (start + size - 1)).2 - start,
              bit - 1) :: rest))
termination_by stackWeight stack
decreasing_by
  all_goals simp only [stackWeight_cons]
  · have : 0 < taskWeight (start, size, bit) := Nat.pow_pos (by norm_num)
    omega
  · have h1 : (bit - 1 + 1).toNat = bit.toNat := by omega
    have h2 : (bit + 1).toNat = bit.toNat + 1 := by omega
    simp only [taskWeight, h1, h2]
    have h3 : 0 < 3 ^ bit.toNat := Nat.pow_pos (by norm_num)
    calc 3 ^ bit.toNat + (3 ^ bit.toNat + stackWeight rest)
        < 3 ^ bit.toNat * 3 + stackWeight rest := by omega
      _ = 3 ^ (bit.toNat + 1) + stackWeight rest := by rw [Nat.pow_succ]

/-- The peak stack occupancy of `bin_radix_sort_it` on input `l`: the largest
value `top + 1` ever takes, i.e. one more than the largest index at which the
auxiliary array `stack` is read or written (the seeding write
`stack[++top] = {0, v.size(), W - 1}` of line 62 included, which is why the
peak is at least `1` even on an empty input). -/
def bin_radix_sort_it_peak (W : Nat) (l : List Nat) : Nat :=
  bin_radix_sort_it_peak_loop l [((0 : Int), (l.length : Int), (W : Int) - 1)]

theorem bin_radix_sort_rec_inm_run_depth_le (l : List Nat) (start size bit : Int) :
    (bin_radix_sort_rec_inm_run l start size bit).depth ≤ (bit + 1).toNat := by
  induction l, start, size, bit using bin_radix_sort_rec_inm_run.induct with
  | case1 l start size bit h =>
    rw [bin_radix_sort_rec_inm_run]
    simp only [dif_pos h]
    omega
  | case2 l start size bit h ih1 ih2 =>
    rw [bin_radix_sort_rec_inm_run]
    simp only [dif_neg h]
    omega

theorem bin_radix_sort_rec_inm_run_views (l : List Nat) (start size bit : Int) :
    ∀ v ∈ (bin_radix_sort_rec_inm_run l start size bit).views,
      start ≤ v.1 ∧ v.1 + v.2 ≤ start + size := by
  induction l, start, size, bit using bin_radix_sort_rec_inm_run.induct with
  | case1 l start size bit h =>
    rw [bin_radix_sort_rec_inm_run]
    simp only [dif_pos h]
    intro v hv
    rcases List.mem_singleton.mp hv with rfl
    omega
  | case2 l start size bit h ih1 ih2 =>
    have hge := partitionLoop_left_ge bit.toNat l start (start + size - 1)
    have hle : (partitionLoop bit.toNat l start (start + size - 1)).2 ≤ start + size := by
      have := partitionLoop_left_le bit.toNat l start (start + size - 1) (by omega)
      omega
    rw [bin_radix_sort_rec_inm_run]
    simp only [dif_neg h]
    intro v hv
    rcases List.mem_cons.mp hv with rfl | hv2
    · omega
    · rcases List.mem_append.mp hv2 with hv3 | hv3
      · have := ih1 v hv3
        omega
      · have := ih2 v hv3
        omega

/-- Stack-shape invariant of the `bin_radix_sort_it` loop: below the top
slot the bit indices of the pending tasks are strictly increasing, the top
task's bit index is no larger than any of them, and every bit index is in
`[-1, W - 1]`.  It holds for the seed stack and is preserved by every loop
iteration, and it bounds the number of pending tasks by `W + 2`. -/
def BitsChain (W : Nat) (stack : List (Int × Int × Int)) : Prop :=
  match stack with
  | [] => True
  | t :: rest =>
      rest.Pairwise (fun a b => a.2.2 < b.2.2) ∧
      (∀ u ∈ rest, t.2.2 ≤ u.2.2) ∧
      (∀ u ∈ t :: rest, -1 ≤ u.2.2 ∧ u.2.2 ≤ (W : Int) - 1)

theorem brs_pairwise_lt_length (L : List (Int × Int × Int)) (lo hi : Int)
    (hp : L.Pairwise (fun a b => a.2.2 < b.2.2))
    (hb : ∀ u ∈ L, lo ≤ u.2.2 ∧ u.2.2 ≤ hi) :
    L.length ≤ (hi - lo + 1).toNat := by
  induction L generalizing lo with
  | nil => simp
  | cons x xs ih =>
    obtain ⟨hx_all, hxs⟩ := List.pairwise_cons.mp hp
    have hx := hb x (List.mem_cons_self _ _)
    have hrec := ih (x.2.2 + 1) hxs
      (fun u hu => ⟨by have := hx_all u hu; omega, (hb u (List.mem_cons_of_mem _ hu)).2⟩)
    simp only [List.length_cons]
    omega

theorem BitsChain_pop (W : Nat) (t : Int × Int × Int)
    (rest : List (Int × Int × Int)) (h : BitsChain W (t :: rest)) :
    BitsChain W rest := by
  obtain ⟨hpair, hhead, hbounds⟩ := h
  match rest with
  | [] => trivial
  | u :: rest2 =>
    obtain ⟨hu_all, hrest2⟩ := List.pairwise_cons.mp hpair
    exact ⟨hrest2, fun v hv => le_of_lt (hu_all v hv),
      fun v hv => hbounds v (List.mem_cons_of_mem _ hv)⟩

theorem BitsChain_length (W : Nat) (stack : List (Int × Int × Int))
    (h : BitsChain W stack) : stack.length ≤ W + 2 := by
  match stack with
  | [] => simp
  | t :: rest =>
    obtain ⟨hpair, hhead, hbounds⟩ := h
    have := brs_pairwise_lt_length rest (-1) ((W : Int) - 1) hpair
      (fun u hu => hbounds u (List.mem_cons_of_mem _ hu))
    simp only [List.length_cons]
    omega

theorem bin_radix_sort_it_peak_loop_le (W : Nat) (l : List Nat)
    (stack : List (Int × Int × Int)) :
    BitsChain W stack → bin_radix_sort_it_peak_loop l stack ≤ W + 2 := by
  induction l, stack using bin_radix_sort_it_peak_loop.induct with
  | case1 l =>
    intro _
    rw [bin_radix_sort_it_peak_loop]
    exact Nat.zero_le _
  | case2 l start size bit rest h ih =>
    intro hchain
    have hlen := BitsChain_length W ((start, size, bit) :: rest) hchain
    have hrec := ih (BitsChain_pop W _ _ hchain)
    rw [bin_radix_sort_it_peak_loop]
    simp only [dif_pos h]
    simp only [List.length_cons] at hlen
    omega
  | case3 l start size bit rest h ih =>
    intro hchain
    obtain ⟨hsz, hbit⟩ := not_or.mp h
    have hlen := BitsChain_length W ((start, size, bit) :: rest) hchain
    obtain ⟨hpair, hhead, hbounds⟩ := hchain
    have hhead2 : ∀ u ∈ rest, bit ≤ u.2.2 := hhead
    have hbt : -1 ≤ bit ∧ bit ≤ (W : Int) - 1 :=
      hbounds (start, size, bit) (List.mem_cons_self _ _)
    have hchain2 : BitsChain W
        (((partitionLoop bit.toNat l start (start + size - 1)).2,
            size - ((partitionLoop bit.toNat l start (start + size - 1)).2 - start),
            bit - 1) ::
          (start, (partitionLoop bit.toNat l start (start + size - 1)).2 - start,
            bit - 1) :: rest) := by
      refine ⟨List.pairwise_cons.mpr ⟨fun u hu => ?_, hpair⟩, ?_, ?_⟩
      · have := hhead2 u hu
        show bit - 1 < u.2.2
        omega
      · intro u hu
        rcases List.mem_cons.mp hu with rfl | hu2
        · show bit - 1 ≤ bit - 1
          omega
        · have := hhead2 u hu2
          show bit - 1 ≤ u.2.2
          omega
      · intro u hu
        rcases List.mem_cons.mp hu with rfl | hu2
        · show -1 ≤ bit - 1 ∧ bit - 1 ≤ (W : Int) - 1
          omega
        · rcases List.mem_cons.mp hu2 with rfl | hu3
          · show -1 ≤ bit - 1 ∧ bit - 1 ≤ (W : Int) - 1
            omega
          · exact hbounds u (List.mem_cons_of_mem _ hu3)
    have hrec := ih hchain2
    rw [bin_radix_sort_it_peak_loop]
    simp only [dif_neg h]
    simp only [List.length_cons] at hlen
    omega

/-- Per-task budget of partitioning steps: a task of size `sz` at bit `b`
can cause at most `(b + 1) * sz` partitioning iterations in total. -/
def stackExpandBound (stack : List (Int × Int × Int)) : Nat :=
  (stack.map (fun t => (t.2.2 + 1).toNat * t.2.1.toNat)).sum

theorem stackExpandBound_cons (t : Int × Int × Int)
    (rest : List (Int × Int × Int)) :
    stackExpandBound (t :: rest) =
      (t.2.2 + 1).toNat * t.2.1.toNat + stackExpandBound rest := by
  simp [stackExpandBound]

/-- Per-task budget of loop iterations. -/
def stackPopBound (stack : List (Int × Int × Int)) : Nat :=
  (stack.map (fun t => 2 * ((t.2.2 + 1).toNat * t.2.1.toNat) + 1)).sum

theorem stackPopBound_cons (t : Int × Int × Int)
    (rest : List (Int × Int × Int)) :
    stackPopBound (t :: rest) =
      2 * ((t.2.2 + 1).toNat * t.2.1.toNat) + 1 + stackPopBound rest := by
  simp [stackPopBound]

theorem stackExpandBound_split (start size bit fl : Int)
    (rest : List (Int × Int × Int)) (hbit : 0 ≤ bit) (hsz : 2 ≤ size)
    (hge : start ≤ fl) (hle : fl ≤ start + size) :
    stackExpandBound ((fl, size - (fl - start), bit - 1) ::
        (start, fl - start, bit - 1) :: rest) + 1 ≤
      stackExpandBound ((start, size, bit) :: rest) := by
  rw [stackExpandBound_cons, stackExpandBound_cons, stackExpandBound_cons]
  show (bit - 1 + 1).toNat * (size - (fl - start)).toNat +
      ((bit - 1 + 1).toNat * (fl - start).toNat + stackExpandBound rest) + 1 ≤
    (bit + 1).toNat * size.toNat + stackExpandBound rest
  have h1 : (bit - 1 + 1).toNat = bit.toNat := by omega
  have h2 : (bit + 1).toNat = bit.toNat + 1 := by omega
  have h3 : (size - (fl - start)).toNat + (fl - start).toNat = size.toNat := by omega
  have h4 : bit.toNat * (size - (fl - start)).toNat +
      bit.toNat * (fl - start).toNat = bit.toNat * size.toNat := by
    rw [← Nat.mul_add, h3]
  have h5 : (bit.toNat + 1) * size.toNat = bit.toNat * size.toNat + size.toNat := by
    ring
  have h6 : 2 ≤ size.toNat := by omega
  rw [h1, h2]
  linarith

theorem stackPopBound_split (start size bit fl : Int)
    (rest : List (Int × Int × Int)) (hbit : 0 ≤ bit) (hsz : 2 ≤ size)
    (hge : start ≤ fl) (hle : fl ≤ start + size) :
    stackPopBound ((fl, size - (fl - start), bit - 1) ::
        (start, fl - start, bit - 1) :: rest) + 1 ≤
      stackPopBound ((start, size, bit) :: rest) := by
  rw [stackPopBound_cons, stackPopBound_cons, stackPopBound_cons]
  show 2 * ((bit - 1 + 1).toNat * (size - (fl - start)).toNat) + 1 +
      (2 * ((bit - 1 + 1).toNat * (fl - start).toNat) + 1 + stackPopBound rest) + 1 ≤
    2 * ((bit + 1).toNat * size.toNat) + 1 + stackPopBound rest
  have h1 : (bit - 1 + 1).toNat = bit.toNat := by omega
  have h2 : (bit + 1).toNat = bit.toNat + 1 := by omega
  have h3 : (size - (fl - start)).toNat + (fl - start).toNat = size.toNat := by omega
  have h4 : bit.toNat * (size - (fl - start)).toNat +
      bit.toNat * (fl - start).toNat = bit.toNat * size.toNat := by
    rw [← Nat.mul_add, h3]
  have h5 : (bit.toNat + 1) * size.toNat = bit.toNat * size.toNat + size.toNat := by
    ring
  have h6 : 2 ≤ size.toNat := by omega
  rw [h1, h2]
  linarith

theorem bin_radix_sort_it_run_expands_le (l : List Nat)
    (stack : List (Int × Int × Int)) :
    (bin_radix_sort_it_run l stack).expands ≤ stackExpandBound stack := by
  induction l, stack using bin_radix_sort_it_run.induct with
  | case1 l =>
    rw [bin_radix_sort_it_run]
    exact Nat.zero_le _
  | case2 l start size bit rest h ih =>
    rw [bin_radix_sort_it_run]
    simp only [dif_pos h]
    rw [stackExpandBound_cons]
    have hnn : 0 ≤ ((start, size, bit) : Int × Int × Int).2.2.toNat := Nat.zero_le _
    have hx : 0 ≤ (((start, size, bit) : Int × Int × Int).2.2 + 1).toNat *
        ((start, size, bit) : Int × Int × Int).2.1.toNat := Nat.zero_le _
    linarith
  | case3 l start size bit rest h ih =>
    obtain ⟨hsz, hbit⟩ := not_or.mp h
    have hge := partitionLoop_left_ge bit.toNat l start (start + size - 1)
    have hle : (partitionLoop bit.toNat l start (start + size - 1)).2 ≤ start + size := by
      have := partitionLoop_left_le bit.toNat l start (start + size - 1) (by omega)
      omega
    have hsplit := stackExpandBound_split start size bit
      (partitionLoop bit.toNat l start (start + size - 1)).2 rest
      (by omega) (by omega) hge hle
    rw [bin_radix_sort_it_run]
    simp only [dif_neg h]
    exact le_trans (Nat.add_le_add_right ih 1) hsplit

theorem bin_radix_sort_it_run_pops_le (l : List Nat)
    (stack : List (Int × Int × Int)) :
    (bin_radix_sort_it_run l stack).pops ≤ stackPopBound stack := by
  induction l, stack using bin_radix_sort_it_run.induct with
  | case1 l =>
    rw [bin_radix_sort_it_run]
    exact Nat.zero_le _
  | case2 l start size bit rest h ih =>
    rw [bin_radix_sort_it_run]
    simp only [dif_pos h]
    rw [stackPopBound_cons]
    have hx : 0 ≤ 2 * ((((start, size, bit) : Int × Int × Int).2.2 + 1).toNat *
        ((start, size, bit) : Int × Int × Int).2.1.toNat) := Nat.zero_le _
    linarith
  | case3 l start size bit rest h ih =>
    obtain ⟨hsz, hbit⟩ := not_or.mp h
    have hge := partitionLoop_left_ge bit.toNat l start (start + size - 1)
    have hle : (partitionLoop bit.toNat l start (start + size - 1)).2 ≤ start + size := by
      have := partitionLoop_left_le bit.toNat l start (start + size - 1) (by omega)
      omega
    have hsplit := stackPopBound_split start size bit
      (partitionLoop bit.toNat l start (start + size - 1)).2 rest
      (by omega) (by omega) hge hle
    rw [bin_radix_sort_it_run]
    simp only [dif_neg h]
    exact le_trans (Nat.add_le_add_right ih 1) hsplit

theorem bin_radix_sort_it_run_tasks_bounds (l : List Nat)
    (stack : List (Int × Int × Int)) (n : Int) :
    (∀ t ∈ stack, 0 ≤ t.1 ∧ 0 ≤ t.2.1 ∧ t.1 + t.2.1 ≤ n) →
    ∀ t ∈ (bin_radix_sort_it_run l stack).tasks,
      0 ≤ t.1 ∧ 0 ≤ t.2.1 ∧ t.1 + t.2.1 ≤ n := by
  induction l, stack using bin_radix_sort_it_run.induct with
  | case1 l =>
    intro _ t ht
    rw [bin_radix_sort_it_run] at ht
    simp at ht
  | case2 l start size bit rest h ih =>
    intro hinv t ht
    rw [bin_radix_sort_it_run] at ht
    simp only [dif_pos h] at ht
    rcases List.mem_cons.mp ht with rfl | ht2
    · exact hinv _ (List.mem_cons_self _ _)
    · exact ih (fun u hu => hinv u (List.mem_cons_of_mem _ hu)) t ht2
  | case3 l start size bit rest h ih =>
    intro hinv t ht
    obtain ⟨hsz, hbit⟩ := not_or.mp h
    have hge := partitionLoop_left_ge bit.toNat l start (start + size - 1)
    have hle : (partitionLoop bit.toNat l start (start + size - 1)).2 ≤ start + size := by
      have := partitionLoop_left_le bit.toNat l start (start + size - 1) (by omega)
      omega
    have hhd := hinv (start, size, bit) (List.mem_cons_self _ _)
    have hhd2 : 0 ≤ start ∧ 0 ≤ size ∧ start + size ≤ n := hhd
    rw [bin_radix_sort_it_run] at ht
    simp only [dif_neg h] at ht
    rcases List.mem_cons.mp ht with rfl | ht2
    · exact hhd
    · refine ih ?_ t ht2
      intro u hu
      rcases List.mem_cons.mp hu with rfl | hu2
      · refine ⟨by omega, by show (0 : Int) ≤ size - _; omega, ?_⟩
        show (partitionLoop bit.toNat l start (start + size - 1)).2 +
          (size - ((partitionLoop bit.toNat l start (start + size - 1)).2 - start)) ≤ n
        omega
      · rcases List.mem_cons.mp hu2 with rfl | hu3
        · exact ⟨hhd2.1, by show (0 : Int) ≤ _ - start; omega, by
            show start + ((partitionLoop bit.toNat l start (start + size - 1)).2 - start) ≤ n
            omega⟩
        · exact hinv u (List.mem_cons_of_mem _ hu3)

theorem bin_radix_sort_it_run_tasks_head (l : List Nat) (t : Int × Int × Int)
    (rest : List (Int × Int × Int)) :
    ∃ ts, (bin_radix_sort_it_run l (t :: rest)).tasks = t :: ts := by
  obtain ⟨start, size, bit⟩ := t
  rw [bin_radix_sort_it_run]
  by_cases h : size ≤ 1 ∨ bit < 0
  · simp only [dif_pos h]
    exact ⟨_, rfl⟩
  · simp only [dif_neg h]
    exact ⟨_, rfl⟩

/-! ### The harness comparison -/

theorem equal_vectors_loop_iff (v1 v2 : List Nat) (i : Nat) :
    equal_vectors_loop v1 v2 i = true ↔
      ∀ k : Nat, i ≤ k → k < v1.length → v1.getD k 0 = v2.getD k 0 := by
  induction i using equal_vectors_loop.induct v1 v2 with
  | case1 i h hne =>
    rw [equal_vectors_loop]
    simp only [dif_pos h, if_pos hne]
    constructor
    · intro hfalse
      exact absurd hfalse (by simp)
    · intro hall
      exact absurd (hall i (le_refl i) h) hne
  | case2 i h hne ih =>
    have heq : v1.getD i 0 = v2.getD i 0 := by
      by_contra hc
      exact hne hc
    rw [equal_vectors_loop]
    simp only [dif_pos h, if_neg hne]
    rw [ih]
    constructor
    · intro hall k hk1 hk2
      by_cases hki : i = k
      · subst hki
        exact heq
      · exact hall k (by omega) hk2
    · intro hall k hk1 hk2
      exact hall k (by omega) hk2
  | case3 i h =>
    rw [equal_vectors_loop]
    simp only [dif_neg h]
    constructor
    · intro _ k hk1 hk2
      omega
    · intro _
      trivial

theorem equal_vectors_iff (v1 v2 : List Nat) :
    equal_vectors v1 v2 = true ↔
      ∀ k : Nat, k < v1.length → v1.getD k 0 = v2.getD k 0 := by
  rw [equal_vectors, equal_vectors_loop_iff]
  constructor
  · intro h k hk
    exact h k (Nat.zero_le k) hk
  · intro h k _ hk
    exact h k hk

theorem equal_vectors_congr (v1 v2 v2' : List Nat)
    (h : ∀ k : Nat, k < v1.length → v2.getD k 0 = v2'.getD k 0) :
    equal_vectors v1 v2 = equal_vectors v1 v2' := by
  by_cases hv : ∀ k : Nat, k < v1.length → v1.getD k 0 = v2.getD k 0
  · rw [(equal_vectors_iff v1 v2).mpr hv,
      (equal_vectors_iff v1 v2').mpr (fun k hk => (hv k hk).trans (h k hk))]
  · have hv2 : ¬(∀ k : Nat, k < v1.length → v1.getD k 0 = v2'.getD k 0) :=
      fun hc => hv (fun k hk => (hc k hk).trans (h k hk).symm)
    have h1 : equal_vectors v1 v2 = false := by
      rcases Bool.eq_false_or_eq_true (equal_vectors v1 v2) with hb | hb
      · exact absurd ((equal_vectors_iff v1 v2).mp hb) hv
      · exact hb
    have h2 : equal_vectors v1 v2' = false := by
      rcases Bool.eq_false_or_eq_true (equal_vectors v1 v2') with hb | hb
      · exact absurd ((equal_vectors_iff v1 v2').mp hb) hv2
      · exact hb
    rw [h1, h2]

/-! ### Global sortedness of the results -/

theorem brs_rec_length (W : Nat) (l : List Nat) :
    (bin_radix_sort_rec W l).length = l.length :=
  bin_radix_sort_rec_inm_length l 0 (l.length : Int) ((W : Int) - 1)

theorem brs_rec_perm (W : Nat) (l : List Nat) :
    (bin_radix_sort_rec W l).Perm l :=
  bin_radix_sort_rec_inm_perm l 0 (l.length : Int) ((W : Int) - 1)
    (le_refl 0) (by omega)

theorem brs_rec_getD_le (W : Nat) (l : List Nat) (hW : ∀ x ∈ l, x < 2 ^ W)
    (i j : Nat) (hij : i ≤ j) (hj : j < l.length) :
    (bin_radix_sort_rec W l).getD i 0 ≤ (bin_radix_sort_rec W l).getD j 0 := by
  have hlen := brs_rec_length W l
  have hperm := brs_rec_perm W l
  have hs := bin_radix_sort_rec_inm_sorted l 0 (l.length : Int) ((W : Int) - 1)
    (le_refl 0) (by omega) i j (by omega) hij (by omega)
  have hWt : (((W : Int) - 1) + 1).toNat = W := by omega
  rw [hWt] at hs
  have hs2 : (bin_radix_sort_rec W l).getD i 0 % 2 ^ W ≤
      (bin_radix_sort_rec W l).getD j 0 % 2 ^ W := hs
  have hmem : ∀ k : Nat, k < l.length → (bin_radix_sort_rec W l).getD k 0 < 2 ^ W := by
    intro k hk
    have hk2 : k < (bin_radix_sort_rec W l).length := by omega
    rw [List.getD_eq_getElem _ 0 hk2]
    exact hW _ (hperm.subset (List.getElem_mem hk2))
  have hi2 := hmem i (by omega)
  have hj2 := hmem j hj
  rwa [Nat.mod_eq_of_lt hi2, Nat.mod_eq_of_lt hj2] at hs2

theorem brs_rec_sorted (W : Nat) (l : List Nat) (hW : ∀ x ∈ l, x < 2 ^ W) :
    List.Sorted (· ≤ ·) (bin_radix_sort_rec W l) := by
  have hlen := brs_rec_length W l
  refine List.pairwise_iff_getElem.mpr fun i j hi hj hij => ?_
  have := brs_rec_getD_le W l hW i j (by omega) (by omega)
  rwa [List.getD_eq_getElem _ 0 hi, List.getD_eq_getElem _ 0 hj] at this

/-- Ranges of a list concatenate. -/
theorem rangeList_append (X : List Nat) (s n1 n2 : Nat) :
    rangeList X s n1 ++ rangeList X (s + n1) n2 = rangeList X s (n1 + n2) := by
  simp only [rangeList]
  rw [List.take_add, List.drop_drop]

/-! ### Claim theorems -/

/-- C1: for every input sequence of fixed-width unsigned integers, after
`bin_radix_sort_rec` returns, the sequence is in ascending numeric order:
every adjacent pair of positions satisfies `result[i] <= result[i+1]`. -/
theorem claim_C1_rec_sorts_ascending (W : Nat) (l : List Nat)
    (hW : ∀ x ∈ l, x < 2 ^ W) (i : Nat)
    (hi : i + 1 < (bin_radix_sort_rec W l).length) :
    (bin_radix_sort_rec W l).getD i 0 ≤ (bin_radix_sort_rec W l).getD (i + 1) 0 := by
  have hlen := brs_rec_length W l
  exact brs_rec_getD_le W l hW i (i + 1) (by omega) (by omega)

/-- C1 witness: the theorem applied to the concrete 8-bit input
`[5, 2, 8, 1, 9, 3]` at the adjacent pair `(0, 1)`. -/
theorem claim_C1_rec_sorts_ascending_witness :
    (∀ x ∈ ([5, 2, 8, 1, 9, 3] : List Nat), x < 2 ^ 8) ∧
    (0 + 1 < (bin_radix_sort_rec 8 [5, 2, 8, 1, 9, 3]).length) ∧
    (bin_radix_sort_rec 8 [5, 2, 8, 1, 9, 3]).getD 0 0 ≤
      (bin_radix_sort_rec 8 [5, 2, 8, 1, 9, 3]).getD (0 + 1) 0 :=
  ⟨by decide, by rw [brs_rec_length]; decide,
    claim_C1_rec_sorts_ascending 8 [5, 2, 8, 1, 9, 3] (by decide) 0
      (by rw [brs_rec_length]; decide)⟩

/-- C2: both variants permute the input (no element lost, gained or
duplicated), and a single partition step permutes the values of its range:
the multiset of the range `[s, s+sz)` before the step equals the sum of the
multisets of the two sub-ranges `[s, left)` and `[left, s+sz)` after it. -/
theorem claim_C2_permutation :
    (∀ (W : Nat) (l : List Nat), (bin_radix_sort_rec W l).Perm l) ∧
    (∀ (W : Nat) (l : List Nat), (bin_radix_sort_it W l).Perm l) ∧
    (∀ (bit : Nat) (l : List Nat) (s sz : Nat), 1 ≤ sz → s + sz ≤ l.length →
      (↑(rangeList (partitionLoop bit l (s : Int) ((s : Int) + (sz : Int) - 1)).1 s
          ((partitionLoop bit l (s : Int) ((s : Int) + (sz : Int) - 1)).2.toNat - s)) :
        Multiset Nat) +
        ↑(rangeList (partitionLoop bit l (s : Int) ((s : Int) + (sz : Int) - 1)).1
          (partitionLoop bit l (s : Int) ((s : Int) + (sz : Int) - 1)).2.toNat
          (s + sz - (partitionLoop bit l (s : Int) ((s : Int) + (sz : Int) - 1)).2.toNat)) =
        (↑(rangeList l s sz) : Multiset Nat)) := by
  refine ⟨fun W l => brs_rec_perm W l,
    fun W l => ?_, fun bit l s sz hsz hin => ?_⟩
  · rw [← bin_radix_sort_rec_eq_it_general W l]
    exact brs_rec_perm W l
  · set P := partitionLoop bit l (s : Int) ((s : Int) + (sz : Int) - 1) with hP
    have hge : (s : Int) ≤ P.2 :=
      partitionLoop_left_ge bit l (s : Int) ((s : Int) + (sz : Int) - 1)
    have hle : P.2 ≤ (s : Int) + (sz : Int) := by
      have h := partitionLoop_left_le bit l (s : Int) ((s : Int) + (sz : Int) - 1) (by omega)
      have h2 : P.2 ≤ (s : Int) + (sz : Int) - 1 + 1 := h
      omega
    have hlen : P.1.length = l.length :=
      partitionLoop_length bit l (s : Int) ((s : Int) + (sz : Int) - 1)
    have hperm : P.1.Perm l :=
      partitionLoop_perm bit l (s : Int) ((s : Int) + (sz : Int) - 1) (by omega) (by omega)
    have hframe : ∀ k : Nat, k < s ∨ s + sz ≤ k → P.1.getD k 0 = l.getD k 0 := by
      intro k hk
      exact partitionLoop_frame bit l (s : Int) ((s : Int) + (sz : Int) - 1)
        (by omega) k (by omega)
    have hrange : (rangeList P.1 s sz).Perm (rangeList l s sz) :=
      rangeList_perm_of_perm_frame P.1 l s sz hperm hframe (by omega)
    have h1 : s + (P.2.toNat - s) = P.2.toNat := by omega
    have h2 : (P.2.toNat - s) + (s + sz - P.2.toNat) = sz := by omega
    have hsplit := rangeList_append P.1 s (P.2.toNat - s) (s + sz - P.2.toNat)
    rw [h1, h2] at hsplit
    rw [Multiset.coe_add, hsplit]
    exact Multiset.coe_eq_coe.mpr hrange

/-- C2 witness: the partition-step multiset identity applied to the
concrete input `[1, 0]` (bit 0, full range). -/
theorem claim_C2_permutation_witness :
    (1 ≤ 2 ∧ 0 + 2 ≤ ([1, 0] : List Nat).length) ∧
    ((↑(rangeList (partitionLoop 0 [1, 0] ((0 : Nat) : Int)
          (((0 : Nat) : Int) + ((2 : Nat) : Int) - 1)).1 0
        ((partitionLoop 0 [1, 0] ((0 : Nat) : Int)
          (((0 : Nat) : Int) + ((2 : Nat) : Int) - 1)).2.toNat - 0)) : Multiset Nat) +
      ↑(rangeList (partitionLoop 0 [1, 0] ((0 : Nat) : Int)
          (((0 : Nat) : Int) + ((2 : Nat) : Int) - 1)).1
        (partitionLoop 0 [1, 0] ((0 : Nat) : Int)
          (((0 : Nat) : Int) + ((2 : Nat) : Int) - 1)).2.toNat
        (0 + 2 - (partitionLoop 0 [1, 0] ((0 : Nat) : Int)
          (((0 : Nat) : Int) + ((2 : Nat) : Int) - 1)).2.toNat)) =
      (↑(rangeList [1, 0] 0 2) : Multiset Nat)) :=
  ⟨⟨by norm_num, by decide⟩, claim_C2_permutation.2.2 0 [1, 0] 0 2 (by norm_num) (by decide)⟩

/-- C3: on every fixed-width input, the recursive variant, the iterative
variant and a trusted reference sort (insertion sort) produce element-wise
equal results. -/
theorem claim_C3_variants_agree (W : Nat) (l : List Nat)
    (hW : ∀ x ∈ l, x < 2 ^ W) :
    bin_radix_sort_rec W l = bin_radix_sort_it W l ∧
    bin_radix_sort_rec W l = List.insertionSort (· ≤ ·) l := by
  refine ⟨bin_radix_sort_rec_eq_it_general W l, ?_⟩
  exact List.eq_of_perm_of_sorted
    ((brs_rec_perm W l).trans (List.perm_insertionSort (· ≤ ·) l).symm)
    (brs_rec_sorted W l hW)
    (List.sorted_insertionSort (· ≤ ·) l)

/-- C3 witness: the theorem applied to the concrete 8-bit input
`[5, 2, 8, 1, 9, 3]`. -/
theorem claim_C3_variants_agree_witness :
    (∀ x ∈ ([5, 2, 8, 1, 9, 3] : List Nat), x < 2 ^ 8) ∧
    (bin_radix_sort_rec 8 [5, 2, 8, 1, 9, 3] = bin_radix_sort_it 8 [5, 2, 8, 1, 9, 3] ∧
     bin_radix_sort_rec 8 [5, 2, 8, 1, 9, 3] =
       List.insertionSort (· ≤ ·) [5, 2, 8, 1, 9, 3]) :=
  ⟨by decide, claim_C3_variants_agree 8 [5, 2, 8, 1, 9, 3] (by decide)⟩

/-- C4 counterexample: on the 8-bit input `[3, 3]` the work-list of
`bin_radix_sort_it` holds 3 simultaneously pending tasks at its peak, while
the input length — the capacity of the auxiliary array `stack` — is only 2:
the write `stack[++top]` that makes the third task pending uses index 2,
which is not in `[0, 2)`.  (Trace: the two equal values have bit 1 and
bit 0 set, so at bits 1 and 0 the partition puts the whole range into the
high side, producing an empty low task that stays pending while the full
range is split again.) -/
theorem claim_C4_stack_exceeds_input_length :
    bin_radix_sort_it_peak 8 [3, 3] = 3 ∧ ([3, 3] : List Nat).length = 2 := by
  constructor
  · simp [bin_radix_sort_it_peak, bin_radix_sort_it_peak_loop, partitionLoop, list_swap,
      -Prod.mk_zero_zero]
  · rfl

/-- C4 amended: the number of simultaneously pending tasks of
`bin_radix_sort_it` — and hence every index used on the auxiliary `stack`
array, each of which is `< bin_radix_sort_it_peak` — is bounded by `W + 2`,
where `W` is the bit width; the input length is an upper bound only when it
is at least `W + 2` (the bits of the pending tasks strictly increase below
the top slot, so at most `W + 2` tasks are ever pending at once). -/
theorem claim_C4_stack_peak_le (W : Nat) (l : List Nat) :
    bin_radix_sort_it_peak W l ≤ W + 2 := by
  apply bin_radix_sort_it_peak_loop_le
  refine ⟨List.Pairwise.nil, fun u hu => absurd hu (List.not_mem_nil u), fun u hu => ?_⟩
  rcases List.mem_singleton.mp hu with rfl
  show -1 ≤ (W : Int) - 1 ∧ (W : Int) - 1 ≤ (W : Int) - 1
  omega

/-- C5: both variants leave an empty or a singleton sequence unchanged, and
on a singleton no out-of-bounds access happens; but on the empty sequence
`bin_radix_sort_it` still seeds its work-list with one task
(`stack[++top] = {0, 0, W - 1}` at line 62), a write at index 0 into the
auxiliary array `stack`, which was constructed with capacity
`v.size() = 0` — an out-of-bounds access, recorded here as a peak occupancy
of 1 against a capacity of 0. -/
theorem claim_C5_empty_singleton (W : Nat) (x : Nat) :
    bin_radix_sort_rec W [] = [] ∧
    bin_radix_sort_it W [] = [] ∧
    bin_radix_sort_rec W [x] = [x] ∧
    bin_radix_sort_it W [x] = [x] ∧
    bin_radix_sort_it_peak W [] = 1 ∧
    ([] : List Nat).length = 0 := by
  refine ⟨?_, ?_, ?_, ?_, ?_, rfl⟩
  · rw [bin_radix_sort_rec]
    exact bin_radix_sort_rec_inm_base _ _ _ _ (Or.inl (by simp))
  · rw [bin_radix_sort_it,
      bin_radix_sort_it_loop_base _ _ _ _ _ (Or.inl (by simp)),
      bin_radix_sort_it_loop_nil]
  · rw [bin_radix_sort_rec]
    exact bin_radix_sort_rec_inm_base _ _ _ _ (Or.inl (by simp))
  · rw [bin_radix_sort_it,
      bin_radix_sort_it_loop_base _ _ _ _ _ (Or.inl (by simp)),
      bin_radix_sort_it_loop_nil]
  · simp [bin_radix_sort_it_peak, bin_radix_sort_it_peak_loop]

/-- C6: after the two-pointer partition loop runs over a view
`(start, size)` of length at least 1 at bit `b`, there is a boundary
`left` with `start ≤ left ≤ start + size` such that every element at an
index in `[start, left)` has bit `b` equal to 0 and every element at an
index in `[left, start + size)` has bit `b` equal to 1. -/
theorem claim_C6_partition_postcondition (bit : Nat) (l : List Nat) (s sz : Nat)
    (hsz : 1 ≤ sz) (hin : s + sz ≤ l.length) :
    (s : Int) ≤ (partitionLoop bit l (s : Int) ((s : Int) + (sz : Int) - 1)).2 ∧
    (partitionLoop bit l (s : Int) ((s : Int) + (sz : Int) - 1)).2 ≤
      (s : Int) + (sz : Int) ∧
    (∀ k : Nat, (s : Int) ≤ (k : Int) →
      (k : Int) < (partitionLoop bit l (s : Int) ((s : Int) + (sz : Int) - 1)).2 →
      ((partitionLoop bit l (s : Int) ((s : Int) + (sz : Int) - 1)).1.getD k 0 >>> bit)
        &&& 1 = 0) ∧
    (∀ k : Nat,
      (partitionLoop bit l (s : Int) ((s : Int) + (sz : Int) - 1)).2 ≤ (k : Int) →
      (k : Int) < (s : Int) + (sz : Int) →
      ((partitionLoop bit l (s : Int) ((s : Int) + (sz : Int) - 1)).1.getD k 0 >>> bit)
        &&& 1 = 1) := by
  have hge := partitionLoop_left_ge bit l (s : Int) ((s : Int) + (sz : Int) - 1)
  have hle := partitionLoop_left_le bit l (s : Int) ((s : Int) + (sz : Int) - 1) (by omega)
  obtain ⟨h0, h1⟩ :=
    partitionLoop_post bit l (s : Int) ((s : Int) + (sz : Int) - 1) (by omega) (by omega)
  exact ⟨hge, by omega, h0, fun k hk1 hk2 => h1 k hk1 (by omega)⟩

/-- C6 witness: the theorem applied to the concrete input `[1, 0]` at
bit 0 over the full view. -/
theorem claim_C6_partition_postcondition_witness :
    (1 ≤ 2 ∧ 0 + 2 ≤ ([1, 0] : List Nat).length) ∧
    (((0 : Nat) : Int) ≤
        (partitionLoop 0 [1, 0] ((0 : Nat) : Int)
          (((0 : Nat) : Int) + ((2 : Nat) : Int) - 1)).2 ∧
      (partitionLoop 0 [1, 0] ((0 : Nat) : Int)
          (((0 : Nat) : Int) + ((2 : Nat) : Int) - 1)).2 ≤
        ((0 : Nat) : Int) + ((2 : Nat) : Int) ∧
      (∀ k : Nat, ((0 : Nat) : Int) ≤ (k : Int) →
        (k : Int) < (partitionLoop 0 [1, 0] ((0 : Nat) : Int)
          (((0 : Nat) : Int) + ((2 : Nat) : Int) - 1)).2 →
        ((partitionLoop 0 [1, 0] ((0 : Nat) : Int)
          (((0 : Nat) : Int) + ((2 : Nat) : Int) - 1)).1.getD k 0 >>> 0) &&& 1 = 0) ∧
      (∀ k : Nat,
        (partitionLoop 0 [1, 0] ((0 : Nat) : Int)
          (((0 : Nat) : Int) + ((2 : Nat) : Int) - 1)).2 ≤ (k : Int) →
        (k : Int) < ((0 : Nat) : Int) + ((2 : Nat) : Int) →
        ((partitionLoop 0 [1, 0] ((0 : Nat) : Int)
          (((0 : Nat) : Int) + ((2 : Nat) : Int) - 1)).1.getD k 0 >>> 0) &&& 1 = 1)) :=
  ⟨⟨by norm_num, by decide⟩,
    claim_C6_partition_postcondition 0 [1, 0] 0 2 (by norm_num) (by decide)⟩

/-- C7: both variants terminate on every input with bounded work — the
recursion depth of `bin_radix_sort_rec` is at most the bit width `W` (each
recursive call decreases the bit index, and a call at bit `< 0` returns),
and the work-list loop of `bin_radix_sort_it` performs at most
`W * length` partition steps and at most `2 * (W * length) + 1` iterations
in total before the work-list empties. -/
theorem claim_C7_termination_bounds (W : Nat) (l : List Nat) :
    (bin_radix_sort_rec_inm_run l 0 (l.length : Int) ((W : Int) - 1)).depth ≤ W ∧
    (bin_radix_sort_it_run l
      [((0 : Int), (l.length : Int), (W : Int) - 1)]).expands ≤ W * l.length ∧
    (bin_radix_sort_it_run l
      [((0 : Int), (l.length : Int), (W : Int) - 1)]).pops ≤ 2 * (W * l.length) + 1 := by
  have hWt : (((W : Int) - 1) + 1).toNat = W := by omega
  have hlt : ((l.length : Int)).toNat = l.length := by omega
  refine ⟨?_, ?_, ?_⟩
  · have h := bin_radix_sort_rec_inm_run_depth_le l 0 (l.length : Int) ((W : Int) - 1)
    rwa [hWt] at h
  · have h := bin_radix_sort_it_run_expands_le l
      [((0 : Int), (l.length : Int), (W : Int) - 1)]
    have hb : stackExpandBound [((0 : Int), (l.length : Int), (W : Int) - 1)] =
        W * l.length := by
      show (((W : Int) - 1) + 1).toNat * ((l.length : Int)).toNat + 0 = W * l.length
      rw [hWt, hlt]
      exact Nat.add_zero _
    rwa [hb] at h
  · have h := bin_radix_sort_it_run_pops_le l
      [((0 : Int), (l.length : Int), (W : Int) - 1)]
    have hb : stackPopBound [((0 : Int), (l.length : Int), (W : Int) - 1)] =
        2 * (W * l.length) + 1 := by
      show 2 * ((((W : Int) - 1) + 1).toNat * ((l.length : Int)).toNat) + 1 + 0 =
        2 * (W * l.length) + 1
      rw [hWt, hlt]
    rwa [hb] at h

/-- C8: every view recursed on by `bin_radix_sort_rec` and every task triple
ever created by `bin_radix_sort_it` satisfies `0 ≤ start` and
`start + length ≤ sequence length`; the initial task spans exactly the
sequence (it is the first task popped), and each split's sub-ranges lie
inside the parent range `[s, s + sz)`: the boundary `left` returned by the
partition satisfies `s ≤ left ≤ s + sz`, so `[s, left)` and `[left, s + sz)`
are both sub-ranges of the parent's span. -/
theorem claim_C8_ranges_in_bounds (W : Nat) (l : List Nat) :
    (∀ v ∈ (bin_radix_sort_rec_inm_run l 0 (l.length : Int) ((W : Int) - 1)).views,
      0 ≤ v.1 ∧ v.1 + v.2 ≤ (l.length : Int)) ∧
    (∀ t ∈ (bin_radix_sort_it_run l
        [((0 : Int), (l.length : Int), (W : Int) - 1)]).tasks,
      0 ≤ t.1 ∧ t.1 + t.2.1 ≤ (l.length : Int)) ∧
    (∃ ts, (bin_radix_sort_it_run l
        [((0 : Int), (l.length : Int), (W : Int) - 1)]).tasks =
      ((0 : Int), (l.length : Int), (W : Int) - 1) :: ts) ∧
    (∀ (m : List Nat) (s sz : Int) (bit : Nat), 2 ≤ sz →
      s ≤ (partitionLoop bit m s (s + sz - 1)).2 ∧
      (partitionLoop bit m s (s + sz - 1)).2 ≤ s + sz) := by
  refine ⟨?_, ?_, ?_, ?_⟩
  · intro v hv
    have := bin_radix_sort_rec_inm_run_views l 0 (l.length : Int) ((W : Int) - 1) v hv
    omega
  · intro t ht
    have := bin_radix_sort_it_run_tasks_bounds l
      [((0 : Int), (l.length : Int), (W : Int) - 1)] (l.length : Int) ?_ t ht
    · exact ⟨this.1, this.2.2⟩
    · intro u hu
      rcases List.mem_singleton.mp hu with rfl
      refine ⟨le_refl 0, ?_, ?_⟩
      · show (0 : Int) ≤ (l.length : Int)
        omega
      · show (0 : Int) + (l.length : Int) ≤ (l.length : Int)
        omega
  · exact bin_radix_sort_it_run_tasks_head l _ _
  · intro m s sz bit hsz
    have hge := partitionLoop_left_ge bit m s (s + sz - 1)
    have hle := partitionLoop_left_le bit m s (s + sz - 1) (by omega)
    exact ⟨hge, by omega⟩

/-- C8 witness: the sub-range clause applied to the concrete view
`(0, 2)` of `[1, 0]` at bit 0. -/
theorem claim_C8_ranges_in_bounds_witness :
    (0 : Int) ≤ (partitionLoop 0 [1, 0] 0 (0 + 2 - 1)).2 ∧
    (partitionLoop 0 [1, 0] 0 (0 + 2 - 1)).2 ≤ 0 + 2 :=
  (claim_C8_ranges_in_bounds 8 [1, 0]).2.2.2 [1, 0] 0 2 0 (by norm_num)

/-- C9: one partition step of `bin_radix_sort_it` for a task
`(start, size, bit)` with `size ≥ 2` and `bit ≥ 0` (and, as for every task
the loop creates, `start ≥ 0`) leaves every element of the sequence at an
index outside `[start, start + size)` unchanged. -/
theorem claim_C9_partition_step_frame (l : List Nat) (s sz bit : Int)
    (hs : 0 ≤ s) (hsz : 2 ≤ sz) (hbit : 0 ≤ bit) (k : Nat)
    (hk : (k : Int) < s ∨ s + sz ≤ (k : Int)) :
    (partitionLoop bit.toNat l s (s + sz - 1)).1.getD k 0 = l.getD k 0 := by
  have hsz2 : 1 ≤ sz := by omega
  have hbit2 : -1 ≤ bit := by omega
  exact partitionLoop_frame bit.toNat l s (s + sz - 1) hs k (by omega)

/-- C9 witness: the theorem applied to the concrete input `[1, 0, 7]`, task
`(0, 2, 0)`, at the outside index 2 (whose element 7 is untouched). -/
theorem claim_C9_partition_step_frame_witness :
    ((0 : Int) ≤ 0 ∧ (2 : Int) ≤ 2 ∧ (0 : Int) ≤ 0 ∧
      (((2 : Nat) : Int) < 0 ∨ (0 : Int) + 2 ≤ ((2 : Nat) : Int))) ∧
    (partitionLoop (0 : Int).toNat [1, 0, 7] 0 (0 + 2 - 1)).1.getD 2 0 =
      ([1, 0, 7] : List Nat).getD 2 0 :=
  ⟨⟨le_refl 0, le_refl 2, le_refl 0, Or.inr (by norm_num)⟩,
    claim_C9_partition_step_frame [1, 0, 7] 0 2 0 (le_refl 0) (le_refl 2)
      (le_refl 0) 2 (Or.inr (by norm_num))⟩

/-- C10: the harness comparison `equal_vectors v1 v2` returns `true` exactly
when `v2[i] == v1[i]` for every index `i` below the length of `v1`; it never
inspects `v2` beyond the length of `v1` (its result is unchanged when `v2`
is replaced by any list agreeing with it on those indices), so it returns
`true` whenever `v1` is empty, and whenever `v2` extends `v1` (matching
prefix, any extra suffix). -/
theorem claim_C10_equal_vectors (v1 v2 : List Nat) :
    (equal_vectors v1 v2 = true ↔
      ∀ i : Nat, i < v1.length → v2.getD i 0 = v1.getD i 0) ∧
    (equal_vectors [] v2 = true) ∧
    (∀ v2' : List Nat, (∀ i : Nat, i < v1.length → v2.getD i 0 = v2'.getD i 0) →
      equal_vectors v1 v2 = equal_vectors v1 v2') ∧
    (∀ t : List Nat, v2 = v1 ++ t → equal_vectors v1 v2 = true) := by
  refine ⟨?_, ?_, ?_, ?_⟩
  · rw [equal_vectors_iff]
    constructor
    · intro h i hi
      exact (h i hi).symm
    · intro h i hi
      exact (h i hi).symm
  · rw [equal_vectors_iff]
    intro k hk
    simp at hk
  · intro v2' h
    exact equal_vectors_congr v1 v2 v2' h
  · intro t ht
    subst ht
    rw [equal_vectors_iff]
    intro k hk
    have hk2 : k < (v1 ++ t).length := by
      rw [List.length_append]
      omega
    rw [List.getD_eq_getElem v1 0 hk, List.getD_eq_getElem (v1 ++ t) 0 hk2]
    exact (List.getElem_append_left hk).symm

/-- C10 witness: `equal_vectors` accepts the longer second vector
`[1, 2, 7]` against `[1, 2]` (matching prefix). -/
theorem claim_C10_equal_vectors_witness :
    equal_vectors [1, 2] [1, 2, 7] = true :=
  (claim_C10_equal_vectors [1, 2] [1, 2, 7]).2.2.2 [7] rfl
